import Mathlib

/- Shallow embedding of the CrabiPie HTTP client (src/main.rs): request
construction, dispatch and response classification, together with proofs
about the behaviour the specification describes. -/

-- ### Characters and Rust string primitives

def quoteC : Char := Char.ofNat 34

def apostC : Char := Char.ofNat 39

def backslashC : Char := Char.ofNat 92

/-- Unicode white-space code points, the set backing Rust char::is_whitespace
and hence str::trim. -/
def isRustWs (c : Char) : Bool :=
  (9 ≤ c.toNat && c.toNat ≤ 13) || c.toNat = 32 || c.toNat = 133 || c.toNat = 160 ||
  c.toNat = 5760 || (8192 ≤ c.toNat && c.toNat ≤ 8202) || c.toNat = 8232 ||
  c.toNat = 8233 || c.toNat = 8239 || c.toNat = 8287 || c.toNat = 12288

/-- Rust str::trim on a character list. -/
def trimChars (cs : List Char) : List Char :=
  ((cs.dropWhile isRustWs).reverse.dropWhile isRustWs).reverse

def rustTrim (s : String) : String := String.mk (trimChars s.data)

def lowerStr (s : String) : String := String.mk (s.data.map Char.toLower)

/-- Split a character list at every occurrence of a separator character, the
segmentation shared by Rust str::split(char) and str::lines. -/
def splitChar (sep : Char) : List Char → List (List Char)
  | [] => [[]]
  | c :: cs =>
    match splitChar sep cs with
    | [] => [[]]
    | seg :: segs => if c = sep then [] :: seg :: segs else (c :: seg) :: segs

/-- Rust str::lines: split on newline; each line loses one trailing carriage
return; a trailing newline does not produce a final empty line. -/
def rustLines (s : String) : List String :=
  let parts := splitChar (Char.ofNat 10) s.data
  let parts := if parts.getLast? = some [] then parts.dropLast else parts
  parts.map (fun cs =>
    String.mk (if cs.getLast? = some (Char.ofNat 13) then cs.dropLast else cs))

/-- Rust str::split_once(char): split at the first occurrence only. -/
def splitOnceChar (sep : Char) : List Char → Option (List Char × List Char)
  | [] => none
  | c :: cs =>
    if c = sep then some ([], cs)
    else
      match splitOnceChar sep cs with
      | some (l, r) => some (c :: l, r)
      | none => none

-- ### Header names, values and the header map

/-- Characters legal in an HTTP header name (http crate HeaderName). -/
def isHeaderNameChar (c : Char) : Bool :=
  c.isLower || c.isUpper || c.isDigit ||
  c = '!' || c = '#' || c = '$' || c = '%' || c = '&' || c = apostC ||
  c = '*' || c = '+' || c = '-' || c = '.' || c = '^' || c = '_' ||
  c = Char.ofNat 96 || c = '|' || c = '~'

/-- HeaderName::from_bytes with the crate's lowercase normalisation: a
non-empty run of legal token characters, compared case-insensitively. -/
def headerNameOf (k : String) : Option String :=
  if k.data ≠ [] ∧ k.data.all isHeaderNameChar then some (lowerStr k) else none

/-- Bytes legal in an HTTP header value (HeaderValue::from_str): horizontal
tab, or any byte that is at least 0x20 and not 0x7F; every byte of a UTF-8
encoded character beyond ASCII is at least 0x80 and hence legal. -/
def isHeaderValueChar (c : Char) : Bool :=
  c.toNat = 9 || (32 ≤ c.toNat && c.toNat ≠ 127)

def isValidHeaderValue (v : String) : Bool := v.data.all isHeaderValueChar

/-- reqwest::header::HeaderMap modelled as an association list whose keys are
already lowercased; HeaderMap::insert drops every previous value of the key. -/
def headerInsert (k v : String) (m : List (String × String)) : List (String × String) :=
  m.filter (fun p => p.1 != k) ++ [(k, v)]

/-- One line of the raw header text as processed by MyApp::parse_headers
(lines 165-181): trim, skip blank and '#'-prefixed lines, split at the first
colon, trim both sides, validate name and value; the pair the line inserts. -/
def headerLineEntry (line : String) : Option (String × String) :=
  let line := rustTrim line
  if line.data = [] ∨ line.data.head? = some '#' then none
  else
    match splitOnceChar ':' line.data with
    | none => none
    | some (k, v) =>
      let key := String.mk (trimChars k)
      let value := String.mk (trimChars v)
      match headerNameOf key with
      | some name => if isValidHeaderValue value then some (name, value) else none
      | none => none

/-- MyApp::parse_headers (lines 162-185): fold every line of the header text
into the header map. -/
def parse_headers (raw : String) : List (String × String) :=
  (rustLines raw).foldl
    (fun m line =>
      match headerLineEntry line with
      | some (k, v) => headerInsert k v m
      | none => m) []

/-- Reference reading of the HeaderParser contract (spec section 4.1): among
the kept lines, the last occurrence of a case-insensitively matched key
decides its value. -/
def specHeaderValue (raw : String) (k : String) : Option String :=
  (((rustLines raw).filterMap headerLineEntry).reverse.find?
    (fun p => p.1 == lowerStr k)).map Prod.snd

-- ### Request data model (src/main.rs lines 16-72)

inductive ContentType where
  | Json
  | FormData
deriving DecidableEq

inductive FormFieldType where
  | Text
  | File
deriving DecidableEq

structure FormField where
  key : String
  value : String
  files : List String
  field_type : FormFieldType
deriving DecidableEq

inductive AuthType where
  | None
  | Bearer
deriving DecidableEq

inductive HttpMethod where
  | GET
  | POST
  | PUT
  | DELETE
  | PATCH
deriving DecidableEq

structure HttpResponse where
  status : String
  headers : String
  body : String
  is_binary : Bool
  filename : String
  bytes : List Nat
  content_type : String
deriving DecidableEq

-- ### Multipart form encoding (lines 599-629, repeated for POST, PUT, PATCH)

inductive FormPartContent where
  | text (s : String)
  | bytes (content : List Nat)
deriving DecidableEq

structure FormPart where
  name : String
  filename : Option String
  content : FormPartContent
deriving DecidableEq

/-- Rust Path::file_name for Unix-style paths: the final non-empty, non-"."
component, unless that component is "..". -/
def pathFileName (p : String) : Option String :=
  let comps := (splitChar '/' p.data).filter (fun c => c != [] && c != ['.'])
  match comps.getLast? with
  | some c => if c = ['.', '.'] then none else some (String.mk c)
  | none => none

/-- One iteration of the form loop: fields with an empty key are skipped;
Text fields emit a text part; File fields read the path held in field.value
and are skipped when it is empty or unreadable.  The filesystem is the map
fs from path to file bytes, modelling std::fs::read. -/
def encodeFormStep (fs : String → Option (List Nat)) (parts : List FormPart)
    (field : FormField) : List FormPart :=
  if field.key ≠ "" then
    match field.field_type with
    | FormFieldType.Text => parts ++ [⟨field.key, none, FormPartContent.text field.value⟩]
    | FormFieldType.File =>
      if field.value ≠ "" then
        match fs field.value with
        | some file_content =>
          parts ++ [⟨field.key, some ((pathFileName field.value).getD "file"),
                     FormPartContent.bytes file_content⟩]
        | none => parts
      else parts
  else parts

def encodeForm (fs : String → Option (List Nat)) (fields : List FormField) : List FormPart :=
  fields.foldl (encodeFormStep fs) []

-- ### Bearer auth and request assembly (send_request, lines 561-719)

/-- Lines 576-583: when bearer auth is active and the token non-empty, build
the header value "Bearer <token>"; if it passes HeaderValue::from_str, insert
it into the parsed header map, silently doing nothing otherwise. -/
def applyBearerAuth (auth_type : AuthType) (bearer_token : String)
    (headers : List (String × String)) : List (String × String) :=
  if auth_type = AuthType.Bearer ∧ bearer_token ≠ "" then
    if isValidHeaderValue ("Bearer " ++ bearer_token) then
      headerInsert "authorization" ("Bearer " ++ bearer_token) headers
    else headers
  else headers

inductive RequestBody where
  | empty
  | text (s : String)
  | multipart (parts : List FormPart)
deriving DecidableEq

structure OutboundRequest where
  method : HttpMethod
  url : String
  headers : List (String × String)
  body : RequestBody
deriving DecidableEq

/-- reqwest RequestBuilder::headers / util::replace_headers: every entry of
the caller-supplied map is inserted into the request's headers, overwriting
same-named entries already set on the request. -/
def replaceHeaders (dst src : List (String × String)) : List (String × String) :=
  src.foldl (fun d p => headerInsert p.1 p.2 d) dst

/-- The snapshot send_request clones out of the application state. -/
structure RequestState where
  url : String
  method : HttpMethod
  headers : String
  body : String
  auth_type : AuthType
  bearer_token : String
  content_type : ContentType
  form_data : List FormField

/-- The body branch shared verbatim by the POST, PUT and PATCH arms: a JSON
body sets the builder header Content-Type: application/json; a multipart body
lets reqwest set the multipart Content-Type (boundary elided in the model). -/
def bodyBuilder (fs : String → Option (List Nat)) (st : RequestState) :
    List (String × String) × RequestBody :=
  match st.content_type with
  | ContentType.Json => ([("content-type", "application/json")], RequestBody.text st.body)
  | ContentType.FormData =>
    ([("content-type", "multipart/form-data")],
     RequestBody.multipart (encodeForm fs st.form_data))

/-- Request assembly in send_request (lines 566-719): parse the raw header
text, overlay the bearer Authorization onto the parsed map, choose verb and
body, then apply the whole map onto the request, caller entries overwriting
builder-set ones. -/
def send_request_build (fs : String → Option (List Nat)) (st : RequestState) :
    OutboundRequest :=
  let headers := applyBearerAuth st.auth_type st.bearer_token (parse_headers st.headers)
  let builder : List (String × String) × RequestBody :=
    match st.method with
    | HttpMethod.GET => ([], RequestBody.empty)
    | HttpMethod.POST => bodyBuilder fs st
    | HttpMethod.PUT => bodyBuilder fs st
    | HttpMethod.DELETE => ([], RequestBody.empty)
    | HttpMethod.PATCH => bodyBuilder fs st
  ⟨st.method, st.url, replaceHeaders builder.1 headers, builder.2⟩

-- ### The send trigger (update, lines 909-915)

/-- The condition under which update calls send_request, with Rust operator
precedence: conjunction binds tighter than disjunction, so the non-empty URL
check only guards the Enter-key path, and no check trims whitespace. -/
def sendTriggered (send_clicked lost_focus enter_pressed : Bool) (url : String) : Bool :=
  send_clicked || (lost_focus && enter_pressed && !(url == ""))

-- ### Association-list lemmas for the header map

theorem lookup_append (k : String) (l1 l2 : List (String × String)) :
    List.lookup k (l1 ++ l2) =
      match List.lookup k l1 with
      | some v => some v
      | none => List.lookup k l2 := by
  induction l1 with
  | nil => simp [List.lookup]
  | cons p t ih =>
    obtain ⟨a, b⟩ := p
    by_cases h : k = a
    · have hbeq : (k == a) = true := by simp [h]
      simp [List.lookup, hbeq]
    · have hbeq : (k == a) = false := by simp [h]
      simp [List.lookup, hbeq, ih]

theorem lookup_filter_ne (k k' : String) (h : k ≠ k') (m : List (String × String)) :
    List.lookup k (m.filter (fun p => p.1 != k')) = List.lookup k m := by
  induction m with
  | nil => rfl
  | cons p t ih =>
    obtain ⟨a, b⟩ := p
    by_cases ha : a = k'
    · have h1 : (a != k') = false := by simp [ha]
      have hka : k ≠ a := by rw [ha]; exact h
      have h2 : (k == a) = false := by simp [hka]
      simp [List.filter_cons, h1, List.lookup, h2, ih]
    · have h1 : (a != k') = true := by simp [ha]
      by_cases hk : k = a
      · have h2 : (k == a) = true := by simp [hk]
        simp [List.filter_cons, h1, List.lookup, h2]
      · have h2 : (k == a) = false := by simp [hk]
        simp [List.filter_cons, h1, List.lookup, h2, ih]

theorem lookup_filter_self (k : String) (m : List (String × String)) :
    List.lookup k (m.filter (fun p => p.1 != k)) = none := by
  induction m with
  | nil => rfl
  | cons p t ih =>
    obtain ⟨a, b⟩ := p
    by_cases ha : a = k
    · have h1 : (a != k) = false := by simp [ha]
      simp [List.filter_cons, h1, ih]
    · have h1 : (a != k) = true := by simp [ha]
      have hka : k ≠ a := fun hc => ha hc.symm
      have h2 : (k == a) = false := by simp [hka]
      simp [List.filter_cons, h1, List.lookup, h2, ih]

theorem lookup_headerInsert (k k' v : String) (m : List (String × String)) :
    List.lookup k (headerInsert k' v m) = if k' = k then some v else List.lookup k m := by
  unfold headerInsert
  rw [lookup_append]
  by_cases h : k' = k
  · subst h
    rw [lookup_filter_self]
    simp [List.lookup]
  · have hk : k ≠ k' := fun hc => h hc.symm
    rw [lookup_filter_ne k k' hk]
    have h2 : (k == k') = false := by simp [hk]
    cases hm : List.lookup k m <;> simp [List.lookup, h2, h, hm]

theorem lookup_foldl_insert (src dst : List (String × String)) (k : String) :
    List.lookup k (src.foldl (fun d p => headerInsert p.1 p.2 d) dst) =
      match src.reverse.find? (fun p => p.1 == k) with
      | some p => some p.2
      | none => List.lookup k dst := by
  induction src generalizing dst with
  | nil => simp
  | cons p t ih =>
    obtain ⟨a, b⟩ := p
    rw [List.foldl_cons, ih, List.reverse_cons, List.find?_append]
    cases hf : t.reverse.find? (fun p => p.1 == k) with
    | some q => simp [Option.orElse]
    | none =>
      by_cases h : a = k
      · have h2 : (a == k) = true := by simp [h]
        simp [Option.orElse, List.find?, h2, lookup_headerInsert, h]
      · have h2 : (a == k) = false := by simp [h]
        simp [Option.orElse, List.find?, h2, lookup_headerInsert, h]

theorem foldl_entry_filterMap (lines : List String) (m : List (String × String)) :
    lines.foldl
      (fun m line =>
        match headerLineEntry line with
        | some (k, v) => headerInsert k v m
        | none => m) m =
    (lines.filterMap headerLineEntry).foldl (fun d p => headerInsert p.1 p.2 d) m := by
  induction lines generalizing m with
  | nil => rfl
  | cons l t ih =>
    cases h : headerLineEntry l with
    | none => simp [List.foldl_cons, h, List.filterMap_cons, ih]
    | some p =>
      obtain ⟨k, v⟩ := p
      simp [List.foldl_cons, h, List.filterMap_cons, ih]

theorem parse_headers_eq_fold (raw : String) :
    parse_headers raw =
      ((rustLines raw).filterMap headerLineEntry).foldl
        (fun d p => headerInsert p.1 p.2 d) [] :=
  foldl_entry_filterMap _ _

theorem nodup_keys_headerInsert (k v : String) (m : List (String × String))
    (h : (m.map Prod.fst).Nodup) : ((headerInsert k v m).map Prod.fst).Nodup := by
  unfold headerInsert
  rw [List.map_append]
  apply List.Nodup.append
  · exact ((List.filter_sublist m).map Prod.fst).nodup h
  · simp
  · intro a ha hb
    simp only [List.map_cons, List.map_nil, List.mem_singleton] at hb
    subst hb
    obtain ⟨p, hp, hfst⟩ := List.mem_map.mp ha
    have := (List.mem_filter.mp hp).2
    rw [hfst] at this
    simp at this

theorem nodup_keys_fold (src dst : List (String × String))
    (h : (dst.map Prod.fst).Nodup) :
    (((src.foldl (fun d p => headerInsert p.1 p.2 d) dst)).map Prod.fst).Nodup := by
  induction src generalizing dst with
  | nil => exact h
  | cons p t ih => exact ih _ (nodup_keys_headerInsert _ _ _ h)

/-- Claim C6: parse_headers agrees with the reference description of header
parsing (trim, skip comments and blanks, split at the first colon, validate,
last case-insensitive occurrence wins) and its output has no duplicate keys. -/
theorem parse_headers_correct (raw k : String) :
    List.lookup (lowerStr k) (parse_headers raw) = specHeaderValue raw k ∧
    ((parse_headers raw).map Prod.fst).Nodup := by
  constructor
  · rw [parse_headers_eq_fold, lookup_foldl_insert]
    unfold specHeaderValue
    cases hf : ((rustLines raw).filterMap headerLineEntry).reverse.find?
        (fun p => p.1 == lowerStr k) with
    | some p => simp [hf]
    | none => simp [hf]
  · rw [parse_headers_eq_fold]
    exact nodup_keys_fold _ _ (by simp)

-- ### Claim C1: what the form loop does with File fields

theorem encodeFormStep_ignores_files (fs : String → Option (List Nat))
    (parts : List FormPart) (f : FormField) :
    encodeFormStep fs parts ⟨f.key, f.value, [], f.field_type⟩ = encodeFormStep fs parts f := by
  cases f
  rfl

theorem encodeFold_ignores_files (fs : String → Option (List Nat))
    (fields : List FormField) (init : List FormPart) :
    (fields.map (fun f => ⟨f.key, f.value, [], f.field_type⟩)).foldl (encodeFormStep fs) init =
      fields.foldl (encodeFormStep fs) init := by
  induction fields generalizing init with
  | nil => rfl
  | cons f t ih =>
    simp only [List.map_cons, List.foldl_cons, encodeFormStep_ignores_files, ih]

def c1fs : String → Option (List Nat) := fun p =>
  if p = "/tmp/f.txt" then some [104, 105] else none

def c1field : FormField := ⟨"a", "", ["/tmp/f.txt"], FormFieldType.File⟩

/-- Claim C1 (code bug): the form loop reads a File field's path from
field.value, never from field.files, so a field whose files list holds one
readable path contributes no part at all; in general the encoder's output is
unchanged when every files list is emptied. -/
theorem file_form_fields_yield_no_parts :
    encodeForm c1fs [c1field] = [] ∧ c1field.files = ["/tmp/f.txt"] ∧
    c1fs "/tmp/f.txt" = some [104, 105] ∧
    ∀ (fs : String → Option (List Nat)) (fields : List FormField),
      encodeForm fs (fields.map (fun f => ⟨f.key, f.value, [], f.field_type⟩)) =
        encodeForm fs fields := by
  refine ⟨rfl, rfl, rfl, ?_⟩
  intro fs fields
  exact encodeFold_ignores_files fs fields []

-- ### Claim C2: the send trigger

/-- Claim C2 (code bug): because the conjunction binds tighter than the
disjunction, clicking Send dispatches even with an empty URL, and the
Enter-key guard does not reject an all-whitespace URL either. -/
theorem send_trigger_misses_empty_url :
    sendTriggered true false false "" = true ∧ sendTriggered false true true " " = true :=
  ⟨rfl, rfl⟩

-- ### More header-map lemmas (find? against reversed maps)

theorem find?_filter_of_imp {α : Type} (p q : α → Bool) (l : List α)
    (h : ∀ x, p x = true → q x = true) :
    (l.filter q).find? p = l.find? p := by
  induction l with
  | nil => rfl
  | cons a t ih =>
    by_cases hq : q a = true
    · rw [List.filter_cons, if_pos hq]
      cases hp : p a <;> simp [List.find?, hp, ih]
    · have hp : p a = false := by
        cases hpa : p a
        · rfl
        · exact absurd (h a hpa) hq
      rw [List.filter_cons, if_neg hq]
      rw [ih]
      cases hfind : t.find? p <;> simp [List.find?, hp, hfind]

theorem filter_reverse_comm {α : Type} (p : α → Bool) (l : List α) :
    (l.filter p).reverse = l.reverse.filter p :=
  (List.filter_reverse p l).symm

theorem find_reverse_headerInsert_self (k v : String) (m : List (String × String)) :
    (headerInsert k v m).reverse.find? (fun p => p.1 == k) = some (k, v) := by
  unfold headerInsert
  have hrev : (m.filter (fun p => p.1 != k) ++ [(k, v)]).reverse =
      (k, v) :: (m.filter (fun p => p.1 != k)).reverse := by simp
  rw [hrev]
  simp [List.find?]

theorem find_reverse_headerInsert_ne (k k' v : String) (h : k' ≠ k)
    (m : List (String × String)) :
    (headerInsert k' v m).reverse.find? (fun p => p.1 == k) =
      m.reverse.find? (fun p => p.1 == k) := by
  unfold headerInsert
  have hrev : (m.filter (fun p => p.1 != k') ++ [(k', v)]).reverse =
      (k', v) :: (m.filter (fun p => p.1 != k')).reverse := by simp
  rw [hrev]
  have h2 : ((k', v).1 == k) = false := by simp [h]
  rw [List.find?_cons_of_neg _ (by simp [h]), filter_reverse_comm]
  apply find?_filter_of_imp
  intro x hx
  have hxk : x.1 = k := by simpa using hx
  simp only [hxk, bne_iff_ne, ne_eq]
  exact fun hc => h hc.symm

theorem find?_reverse_eq_find?_of_nodup (k : String) (m : List (String × String))
    (h : (m.map Prod.fst).Nodup) :
    m.reverse.find? (fun p => p.1 == k) = m.find? (fun p => p.1 == k) := by
  induction m with
  | nil => rfl
  | cons a t ih =>
    rw [List.map_cons, List.nodup_cons] at h
    obtain ⟨hnotin, hnodup⟩ := h
    rw [List.reverse_cons, List.find?_append]
    by_cases hak : a.1 = k
    · have hnone : t.reverse.find? (fun p => p.1 == k) = none := by
        rw [List.find?_eq_none]
        intro x hx
        simp only [beq_iff_eq]
        intro hxk
        have hxm : x ∈ t := List.mem_reverse.mp hx
        have hmem : x.1 ∈ t.map Prod.fst := List.mem_map_of_mem Prod.fst hxm
        rw [hxk, ← hak] at hmem
        exact hnotin hmem
      have h2 : (a.1 == k) = true := by simp [hak]
      simp [hnone, Option.orElse, List.find?, h2]
    · have h2 : (a.1 == k) = false := by simp [hak]
      rw [ih hnodup]
      cases hf : t.find? (fun p => p.1 == k) <;>
        simp [Option.orElse, List.find?, h2, hf]

theorem lookup_eq_find? (k : String) (m : List (String × String)) :
    List.lookup k m = (m.find? (fun p => p.1 == k)).map Prod.snd := by
  induction m with
  | nil => rfl
  | cons a t ih =>
    obtain ⟨x, y⟩ := a
    by_cases h : k = x
    · have h1 : (k == x) = true := by simp [h]
      have h2 : (x == k) = true := by simp [h.symm]
      simp [List.lookup, List.find?, h1, h2]
    · have hx : x ≠ k := fun hc => h hc.symm
      have h1 : (k == x) = false := by simp [h]
      have h2 : (x == k) = false := by simp [hx]
      simp [List.lookup, List.find?, h1, h2, ih]

theorem parse_headers_keys_nodup (raw : String) :
    ((parse_headers raw).map Prod.fst).Nodup := by
  rw [parse_headers_eq_fold]
  exact nodup_keys_fold _ _ (by simp)

theorem applyBearerAuth_active (t : String) (m : List (String × String)) (ht : t ≠ "")
    (hv : isValidHeaderValue ("Bearer " ++ t) = true) :
    applyBearerAuth AuthType.Bearer t m = headerInsert "authorization" ("Bearer " ++ t) m := by
  unfold applyBearerAuth
  rw [if_pos ⟨rfl, ht⟩, if_pos hv]

theorem build_headers_body (fs : String → Option (List Nat)) (st : RequestState)
    (hm : st.method = HttpMethod.POST ∨ st.method = HttpMethod.PUT ∨
      st.method = HttpMethod.PATCH) :
    (send_request_build fs st).headers =
      replaceHeaders (bodyBuilder fs st).1
        (applyBearerAuth st.auth_type st.bearer_token (parse_headers st.headers)) := by
  rcases hm with h | h | h <;> simp [send_request_build, h]

-- ### Claim C10: a non-representable bearer token is silently skipped

/-- Claim C10: with bearer auth active and a non-empty token whose value
"Bearer <token>" fails header-value validation, the Authorization insertion
is skipped and the built request is exactly the one built with no auth, so
whatever Authorization line came from the raw headers survives. -/
theorem invalid_bearer_token_leaves_request_unchanged (fs : String → Option (List Nat))
    (st : RequestState) (hb : st.auth_type = AuthType.Bearer) (ht : st.bearer_token ≠ "")
    (hv : isValidHeaderValue ("Bearer " ++ st.bearer_token) = false) :
    send_request_build fs st = send_request_build fs { st with auth_type := AuthType.None } := by
  have h1 : applyBearerAuth st.auth_type st.bearer_token (parse_headers st.headers) =
      parse_headers st.headers := by
    rw [hb]
    unfold applyBearerAuth
    rw [if_pos ⟨rfl, ht⟩, if_neg (by simp [hv])]
  have h2 : applyBearerAuth AuthType.None st.bearer_token (parse_headers st.headers) =
      parse_headers st.headers := by
    unfold applyBearerAuth
    rw [if_neg (by simp)]
  cases hmethod : st.method <;>
    simp [send_request_build, hmethod, bodyBuilder, h1, h2]

def c10state : RequestState :=
  { url := "https://x.test/a", method := HttpMethod.GET,
    headers := "Authorization: token-1", body := "", auth_type := AuthType.Bearer,
    bearer_token := "a\nb", content_type := ContentType.Json, form_data := [] }

theorem invalid_bearer_token_leaves_request_unchanged_witness :
    send_request_build (fun _ => none) c10state =
      send_request_build (fun _ => none) { c10state with auth_type := AuthType.None } ∧
    List.lookup "authorization" (send_request_build (fun _ => none) c10state).headers =
      some "token-1" :=
  ⟨invalid_bearer_token_leaves_request_unchanged (fun _ => none) c10state rfl
      (by decide) (by decide),
    by decide⟩

-- ### Claim C4: bearer auth precedence over raw Authorization lines

def c4state : RequestState :=
  { url := "https://x.test/a", method := HttpMethod.GET,
    headers := "Authorization: token-1", body := "", auth_type := AuthType.Bearer,
    bearer_token := "tok\nen", content_type := ContentType.Json, form_data := [] }

/-- Claim C4 counterexample: the bearer token "tok\nen" is non-empty, yet the
newline makes "Bearer tok\nen" an illegal header value, the insertion is
skipped, and the outbound Authorization header keeps the raw-header value
instead of "Bearer <token>". -/
theorem bearer_header_not_always_set :
    List.lookup "authorization" (send_request_build (fun _ => none) c4state).headers ≠
      some ("Bearer " ++ c4state.bearer_token) ∧
    List.lookup "authorization" (send_request_build (fun _ => none) c4state).headers =
      some "token-1" := by
  constructor <;> decide

/-- Claim C4 (amended): when bearer auth is active with a non-empty token and
"Bearer <token>" is a legal header value, the outbound Authorization header
equals "Bearer <token>", overwriting any Authorization line from the raw
headers. -/
theorem bearer_overrides_raw_authorization (fs : String → Option (List Nat))
    (st : RequestState) (hb : st.auth_type = AuthType.Bearer) (ht : st.bearer_token ≠ "")
    (hv : isValidHeaderValue ("Bearer " ++ st.bearer_token) = true) :
    List.lookup "authorization" (send_request_build fs st).headers =
      some ("Bearer " ++ st.bearer_token) := by
  have hsrc : applyBearerAuth st.auth_type st.bearer_token (parse_headers st.headers) =
      headerInsert "authorization" ("Bearer " ++ st.bearer_token)
        (parse_headers st.headers) := by
    rw [hb]
    exact applyBearerAuth_active _ _ ht hv
  cases hmethod : st.method <;>
    simp [send_request_build, hmethod, hsrc, replaceHeaders, lookup_foldl_insert,
      find_reverse_headerInsert_self]

def c4okState : RequestState :=
  { url := "https://x.test/a", method := HttpMethod.GET,
    headers := "Authorization: token-1", body := "", auth_type := AuthType.Bearer,
    bearer_token := "token-2", content_type := ContentType.Json, form_data := [] }

theorem bearer_overrides_raw_authorization_witness :
    List.lookup "authorization"
        (send_request_build (fun _ => none) c4okState).headers =
      some "Bearer token-2" :=
  bearer_overrides_raw_authorization (fun _ => none) c4okState rfl (by decide) (by decide)

-- ### Claim C3: builder Content-Type versus raw-header Content-Type

def c3state : RequestState :=
  { url := "https://x.test/a", method := HttpMethod.POST,
    headers := "Content-Type: text/plain", body := "hi", auth_type := AuthType.None,
    bearer_token := "", content_type := ContentType.Json, form_data := [] }

/-- Claim C3 counterexample: the raw headers are applied onto the request
after the builder sets Content-Type: application/json and reqwest's replace
semantics lets them overwrite it, so an explicit raw Content-Type line wins. -/
theorem raw_content_type_overrides_builder :
    List.lookup "content-type" (send_request_build (fun _ => none) c3state).headers =
      some "text/plain" ∧
    List.lookup "content-type" (send_request_build (fun _ => none) c3state).headers ≠
      some "application/json" := by
  constructor <;> decide

/-- Claim C3 (amended): for POST, PUT or PATCH with a JSON body the outbound
Content-Type header is application/json unless the raw headers carry a kept
Content-Type line, in which case the last such raw value wins. -/
theorem json_content_type_unless_overridden (fs : String → Option (List Nat))
    (st : RequestState)
    (hm : st.method = HttpMethod.POST ∨ st.method = HttpMethod.PUT ∨
      st.method = HttpMethod.PATCH)
    (hc : st.content_type = ContentType.Json) :
    List.lookup "content-type" (send_request_build fs st).headers =
      some ((List.lookup "content-type" (parse_headers st.headers)).getD
        "application/json") := by
  have hne : ("authorization" : String) ≠ "content-type" := by decide
  have hsrc : (applyBearerAuth st.auth_type st.bearer_token
        (parse_headers st.headers)).reverse.find? (fun p => p.1 == "content-type") =
      (parse_headers st.headers).reverse.find? (fun p => p.1 == "content-type") := by
    unfold applyBearerAuth
    by_cases h1 : st.auth_type = AuthType.Bearer ∧ st.bearer_token ≠ ""
    · rw [if_pos h1]
      by_cases h2 : isValidHeaderValue ("Bearer " ++ st.bearer_token) = true
      · rw [if_pos h2]
        exact find_reverse_headerInsert_ne _ _ _ hne _
      · rw [if_neg h2]
    · rw [if_neg h1]
  rw [build_headers_body fs st hm]
  have hbuilder : (bodyBuilder fs st).1 = [("content-type", "application/json")] := by
    simp [bodyBuilder, hc]
  rw [hbuilder]
  unfold replaceHeaders
  rw [lookup_foldl_insert, hsrc,
    find?_reverse_eq_find?_of_nodup _ _ (parse_headers_keys_nodup st.headers),
    lookup_eq_find? "content-type" (parse_headers st.headers)]
  cases hf : (parse_headers st.headers).find? (fun p => p.1 == "content-type") with
  | some p => simp [hf]
  | none => simp [hf, List.lookup]

def c3okState : RequestState :=
  { url := "https://x.test/a", method := HttpMethod.POST, headers := "", body := "hi",
    auth_type := AuthType.None, bearer_token := "", content_type := ContentType.Json,
    form_data := [] }

theorem json_content_type_unless_overridden_witness :
    List.lookup "content-type"
        (send_request_build (fun _ => none) c3okState).headers =
      some "application/json" :=
  json_content_type_unless_overridden (fun _ => none) c3okState (Or.inl rfl) rfl

-- ### JSON values (serde_json::Value, integer-numeral fragment)

/- serde_json::Value with objects as ordered maps (BTreeMap: keys strictly
ascending in byte order, which UTF-8 makes the scalar-value order) and
numbers restricted to integer numerals; floating-point numerals are outside
this model. -/
mutual
inductive Json where
  | null : Json
  | bool (b : Bool) : Json
  | num (n : Int) : Json
  | str (s : String) : Json
  | arr (elems : JsonList) : Json
  | obj (fields : JsonFields) : Json
deriving DecidableEq

inductive JsonList where
  | nil : JsonList
  | cons (head : Json) (tail : JsonList) : JsonList
deriving DecidableEq

inductive JsonFields where
  | nil : JsonFields
  | cons (key : String) (val : Json) (tail : JsonFields) : JsonFields
deriving DecidableEq
end

def lbraceC : Char := Char.ofNat 123

def rbraceC : Char := Char.ofNat 125

/-- Lexicographic order on character lists by scalar value, matching the Rust
String Ord instance (byte order of the UTF-8 encoding). -/
def charsLt : List Char → List Char → Bool
  | [], [] => false
  | [], _ :: _ => true
  | _ :: _, [] => false
  | a :: as, b :: bs =>
    if a.toNat < b.toNat then true
    else if b.toNat < a.toNat then false
    else charsLt as bs

/-- BTreeMap::insert on the sorted field list: replace on an equal key,
otherwise keep the strictly ascending key order. -/
def insFields (k : String) (v : Json) : JsonFields → JsonFields
  | .nil => .cons k v .nil
  | .cons k' v' t =>
    if charsLt k.data k'.data then .cons k v (.cons k' v' t)
    else if k = k' then .cons k v t
    else .cons k' v' (insFields k v t)

def jlAppend (l : JsonList) (v : Json) : JsonList :=
  match l with
  | .nil => .cons v .nil
  | .cons h t => .cons h (jlAppend t v)

def jlConcat : JsonList → JsonList → JsonList
  | .nil, l => l
  | .cons h t, l => .cons h (jlConcat t l)

def fconcat : JsonFields → JsonFields → JsonFields
  | .nil, l => l
  | .cons k v t, l => .cons k v (fconcat t l)

/-- All keys of the field list are below k. -/
def fkeysLt : JsonFields → String → Bool
  | .nil, _ => true
  | .cons k' _ t, k => charsLt k'.data k.data && fkeysLt t k

/-- k is below the first key of the field list, if any. -/
def ltKeys (k : String) : JsonFields → Bool
  | .nil => true
  | .cons k' _ _ => charsLt k.data k'.data

mutual
def canonJ : Json → Bool
  | .null => true
  | .bool _ => true
  | .num _ => true
  | .str _ => true
  | .arr es => canonL es
  | .obj fs => canonF fs

def canonL : JsonList → Bool
  | .nil => true
  | .cons h t => canonJ h && canonL t

def canonF : JsonFields → Bool
  | .nil => true
  | .cons k v t => ltKeys k t && canonJ v && canonF t
end

mutual
def jsize : Json → Nat
  | .null => 1
  | .bool _ => 1
  | .num _ => 1
  | .str _ => 1
  | .arr es => 1 + lsize es
  | .obj fs => 1 + fsize fs

def lsize : JsonList → Nat
  | .nil => 0
  | .cons h t => 2 + jsize h + lsize t

def fsize : JsonFields → Nat
  | .nil => 0
  | .cons _ v t => 2 + jsize v + fsize t
end

-- ### Number printing and parsing

def isDigitChar (c : Char) : Bool := 48 ≤ c.toNat && c.toNat ≤ 57

def digitVal (c : Char) : Nat := c.toNat - 48

def natVal (ds : List Char) : Nat := ds.foldl (fun a c => a * 10 + digitVal c) 0

/-- Decimal digits of a natural number, least significant first, with enough
fuel; itoa's output reversed. -/
def natCharsAux : Nat → Nat → List Char
  | 0, _ => []
  | fuel + 1, n =>
    if n < 10 then [Char.ofNat (48 + n)]
    else Char.ofNat (48 + n % 10) :: natCharsAux fuel (n / 10)

def natChars (n : Nat) : List Char := (natCharsAux (n + 1) n).reverse

/-- itoa's rendering of an i64/u64, as serde_json prints integers. -/
def intChars : Int → List Char
  | Int.ofNat n => natChars n
  | Int.negSucc m => '-' :: natChars (m + 1)

/-- serde_json number literal, integer fragment: optional minus sign, a digit
run without a redundant leading zero, not followed by a fraction or
exponent. -/
def parseNumberChars (cs : List Char) : Option (Json × List Char) :=
  let neg := cs.head? == some '-'
  let cs1 := if neg then cs.tail else cs
  let ds := cs1.takeWhile isDigitChar
  let rest := cs1.dropWhile isDigitChar
  if ds = [] then none
  else if 1 < ds.length ∧ ds.head? = some '0' then none
  else if rest.head? = some '.' ∨ rest.head? = some 'e' ∨ rest.head? = some 'E' then none
  else some (Json.num (if neg then -(natVal ds : Int) else (natVal ds : Int)), rest)

-- ### String escaping and parsing

def hexVal (c : Char) : Option Nat :=
  if 48 ≤ c.toNat ∧ c.toNat ≤ 57 then some (c.toNat - 48)
  else if 97 ≤ c.toNat ∧ c.toNat ≤ 102 then some (c.toNat - 87)
  else if 65 ≤ c.toNat ∧ c.toNat ≤ 70 then some (c.toNat - 55)
  else none

def hex4 (a b c d : Char) : Option Nat :=
  match hexVal a, hexVal b, hexVal c, hexVal d with
  | some x, some y, some z, some w => some (((x * 16 + y) * 16 + z) * 16 + w)
  | _, _, _, _ => none

def hexDigitChar (n : Nat) : Char :=
  if n < 10 then Char.ofNat (48 + n) else Char.ofNat (87 + n)

/-- serde_json's string escaping: quote and backslash escaped, named escapes
for BS, HT, LF, FF, CR, \u00XX with lowercase hex for the other control
characters, everything else raw. -/
def escapeChar (c : Char) : List Char :=
  if c = quoteC then [backslashC, quoteC]
  else if c = backslashC then [backslashC, backslashC]
  else if c.toNat = 8 then [backslashC, 'b']
  else if c.toNat = 9 then [backslashC, 't']
  else if c.toNat = 10 then [backslashC, 'n']
  else if c.toNat = 12 then [backslashC, 'f']
  else if c.toNat = 13 then [backslashC, 'r']
  else if c.toNat < 32 then
    [backslashC, 'u', '0', '0', hexDigitChar (c.toNat / 16), hexDigitChar (c.toNat % 16)]
  else [c]

def escapeChars : List Char → List Char
  | [] => []
  | c :: t => escapeChar c ++ escapeChars t

mutual
/-- The body of a JSON string literal after the opening quote, as serde_json
reads it: plain characters up to the closing quote, backslash escapes, raw
control characters rejected. -/
def parseStringBody : List Char → Option (List Char × List Char)
  | [] => none
  | c :: cs =>
    if c = quoteC then some ([], cs)
    else if c = backslashC then parseEscape cs
    else if c.toNat < 32 then none
    else (parseStringBody cs).map (fun r => (c :: r.1, r.2))

/-- What follows a backslash in a JSON string literal. -/
def parseEscape : List Char → Option (List Char × List Char)
  | [] => none
  | e :: cs2 =>
    if e = quoteC ∨ e = backslashC ∨ e = '/' then
      (parseStringBody cs2).map (fun r => (e :: r.1, r.2))
    else if e = 'b' then (parseStringBody cs2).map (fun r => (Char.ofNat 8 :: r.1, r.2))
    else if e = 'f' then (parseStringBody cs2).map (fun r => (Char.ofNat 12 :: r.1, r.2))
    else if e = 'n' then (parseStringBody cs2).map (fun r => (Char.ofNat 10 :: r.1, r.2))
    else if e = 'r' then (parseStringBody cs2).map (fun r => (Char.ofNat 13 :: r.1, r.2))
    else if e = 't' then (parseStringBody cs2).map (fun r => (Char.ofNat 9 :: r.1, r.2))
    else if e = 'u' then parseUnicodeEsc cs2
    else none

/-- A \u escape: four hex digits, with a low-surrogate pair required after a
high surrogate and lone surrogates rejected, as serde_json does. -/
def parseUnicodeEsc : List Char → Option (List Char × List Char)
  | h1 :: h2 :: h3 :: h4 :: cs3 =>
    (hex4 h1 h2 h3 h4).bind (fun n =>
      if n < 55296 ∨ 57344 ≤ n then
        (parseStringBody cs3).map (fun r => (Char.ofNat n :: r.1, r.2))
      else if n ≤ 56319 then parseLowSurrogate n cs3
      else none)
  | _ => none

/-- The second half of a surrogate pair in a \u escape. -/
def parseLowSurrogate (n : Nat) : List Char → Option (List Char × List Char)
  | b1 :: u2 :: g1 :: g2 :: g3 :: g4 :: cs4 =>
    if b1 = backslashC ∧ u2 = 'u' then
      (hex4 g1 g2 g3 g4).bind (fun m =>
        if 56320 ≤ m ∧ m ≤ 57343 then
          (parseStringBody cs4).map (fun r =>
            (Char.ofNat (65536 + (n - 55296) * 1024 + (m - 56320)) :: r.1, r.2))
        else none)
    else none
  | _ => none
end

-- ### The JSON parser (serde_json::from_str, integer fragment)

def isJsonWsChar (c : Char) : Bool :=
  c.toNat = 32 || c.toNat = 9 || c.toNat = 10 || c.toNat = 13

def skipWs (cs : List Char) : List Char := cs.dropWhile isJsonWsChar

inductive ParseTask where
  | value : ParseTask
  | elems (acc : JsonList) : ParseTask
  | fields (acc : JsonFields) : ParseTask

/-- One fueled parsing step: a JSON value, the element loop of an array, or
the member loop of an object (fields collected BTreeMap-style, duplicate
keys replaced, keys kept sorted). -/
def parseV : Nat → ParseTask → List Char → Option (Json × List Char)
  | 0, _, _ => none
  | fuel + 1, ParseTask.value, cs =>
    match skipWs cs with
    | [] => none
    | c :: cs1 =>
      if c = 'n' then
        match cs1 with
        | 'u' :: 'l' :: 'l' :: rest => some (Json.null, rest)
        | _ => none
      else if c = 't' then
        match cs1 with
        | 'r' :: 'u' :: 'e' :: rest => some (Json.bool true, rest)
        | _ => none
      else if c = 'f' then
        match cs1 with
        | 'a' :: 'l' :: 's' :: 'e' :: rest => some (Json.bool false, rest)
        | _ => none
      else if c = quoteC then
        (parseStringBody cs1).map (fun r => (Json.str (String.mk r.1), r.2))
      else if c = '[' then
        match skipWs cs1 with
        | c2 :: rest2 =>
          if c2 = ']' then some (Json.arr JsonList.nil, rest2)
          else parseV fuel (ParseTask.elems JsonList.nil) cs1
        | [] => none
      else if c = lbraceC then
        match skipWs cs1 with
        | c2 :: rest2 =>
          if c2 = rbraceC then some (Json.obj JsonFields.nil, rest2)
          else parseV fuel (ParseTask.fields JsonFields.nil) cs1
        | [] => none
      else parseNumberChars (c :: cs1)
  | fuel + 1, ParseTask.elems acc, cs =>
    match parseV fuel ParseTask.value cs with
    | none => none
    | some (v, rest) =>
      match skipWs rest with
      | c :: rest2 =>
        if c = ',' then parseV fuel (ParseTask.elems (jlAppend acc v)) rest2
        else if c = ']' then some (Json.arr (jlAppend acc v), rest2)
        else none
      | [] => none
  | fuel + 1, ParseTask.fields acc, cs =>
    match skipWs cs with
    | c :: cs1 =>
      if c = quoteC then
        match parseStringBody cs1 with
        | none => none
        | some (kcs, rest1) =>
          match skipWs rest1 with
          | c2 :: rest2 =>
            if c2 = ':' then
              match parseV fuel ParseTask.value rest2 with
              | none => none
              | some (v, rest3) =>
                match skipWs rest3 with
                | c3 :: rest4 =>
                  if c3 = ',' then
                    parseV fuel (ParseTask.fields (insFields (String.mk kcs) v acc)) rest4
                  else if c3 = rbraceC then
                    some (Json.obj (insFields (String.mk kcs) v acc), rest4)
                  else none
                | [] => none
            else none
          | [] => none
      else none
    | [] => none

/-- serde_json::from_str on the integer-numeral JSON fragment: parse one
value and require only white-space to follow. -/
def parseJsonStr (s : String) : Option Json :=
  match parseV (s.data.length + 1) ParseTask.value s.data with
  | some (v, rest) => if skipWs rest = [] then some v else none
  | none => none

-- ### The pretty printer (serde_json::to_string_pretty)

def indentChars (k : Nat) : List Char := List.replicate (2 * k) ' '

mutual
/-- serde_json::to_string_pretty with the default two-space indentation. -/
def litNull : List Char := ['n', 'u', 'l', 'l']

def litTrue : List Char := ['t', 'r', 'u', 'e']

def litFalse : List Char := ['f', 'a', 'l', 's', 'e']

def prettyJ (k : Nat) : Json → List Char
  | .null => litNull
  | .bool true => litTrue
  | .bool false => litFalse
  | .num n => intChars n
  | .str s => quoteC :: escapeChars s.data ++ [quoteC]
  | .arr .nil => ['[', ']']
  | .arr (.cons x xs) =>
    '[' :: '\n' :: indentChars (k + 1) ++ prettyJ (k + 1) x ++ prettyTailL k xs ++
      '\n' :: indentChars k ++ [']']
  | .obj .nil => [lbraceC, rbraceC]
  | .obj (.cons key v fs) =>
    lbraceC :: '\n' :: indentChars (k + 1) ++ (quoteC :: escapeChars key.data ++ [quoteC]) ++
      ':' :: ' ' :: prettyJ (k + 1) v ++ prettyTailF k fs ++ '\n' :: indentChars k ++ [rbraceC]

def prettyTailL (k : Nat) : JsonList → List Char
  | .nil => []
  | .cons x xs => ',' :: '\n' :: indentChars (k + 1) ++ prettyJ (k + 1) x ++ prettyTailL k xs

def prettyTailF (k : Nat) : JsonFields → List Char
  | .nil => []
  | .cons key v fs =>
    ',' :: '\n' :: indentChars (k + 1) ++ (quoteC :: escapeChars key.data ++ [quoteC]) ++
      ':' :: ' ' :: prettyJ (k + 1) v ++ prettyTailF k fs
end

def prettyJson (v : Json) : String := String.mk (prettyJ 0 v)

/-- Lines 776-782 of send_request: if the body text parses as JSON, replace
it with the pretty-printed serialisation (total for Value, so the unwrap_or
fallback never fires); otherwise keep the text unchanged. -/
def prettyPrintedBody (body_text : String) : String :=
  match parseJsonStr body_text with
  | some json => prettyJson json
  | none => body_text

-- ### Order lemmas for charsLt

theorem char_eq_of_toNat_eq {a b : Char} (h : a.toNat = b.toNat) : a = b := by
  have h2 := congrArg Char.ofNat h
  simpa using h2

theorem charsLt_irrefl (l : List Char) : charsLt l l = false := by
  induction l with
  | nil => rfl
  | cons a t ih => simp [charsLt, ih]

theorem charsLt_asymm (a b : List Char) (h : charsLt a b = true) : charsLt b a = false := by
  induction a generalizing b with
  | nil =>
    cases b with
    | nil => simp [charsLt] at h
    | cons y ys => rfl
  | cons x xs ih =>
    cases b with
    | nil => simp [charsLt] at h
    | cons y ys =>
      simp only [charsLt] at h ⊢
      by_cases h1 : x.toNat < y.toNat
      · have h2 : ¬ y.toNat < x.toNat := Nat.lt_asymm h1
        simp [h1, h2]
      · by_cases h2 : y.toNat < x.toNat
        · simp [h1, h2] at h
        · simp only [h1, h2, if_false] at h
          simp [h1, h2, ih ys h]

theorem charsLt_trans (a b c : List Char) (h1 : charsLt a b = true)
    (h2 : charsLt b c = true) : charsLt a c = true := by
  induction a generalizing b c with
  | nil =>
    cases c with
    | nil =>
      cases b with
      | nil => simp [charsLt] at h1
      | cons y ys => simp [charsLt] at h2
    | cons z zs => simp [charsLt]
  | cons x xs ih =>
    cases b with
    | nil => simp [charsLt] at h1
    | cons y ys =>
      cases c with
      | nil => simp [charsLt] at h2
      | cons z zs =>
        simp only [charsLt] at h1 h2 ⊢
        by_cases hxy : x.toNat < y.toNat
        · by_cases hyz : y.toNat < z.toNat
          · simp [Nat.lt_trans hxy hyz]
          · by_cases hzy : z.toNat < y.toNat
            · simp [hyz, hzy] at h2
            · have heq : y.toNat = z.toNat :=
                Nat.le_antisymm (Nat.not_lt.mp hzy) (Nat.not_lt.mp hyz)
              rw [← heq]
              simp [hxy]
        · by_cases hyx : y.toNat < x.toNat
          · simp [hxy, hyx] at h1
          · have hxyeq : x.toNat = y.toNat :=
              Nat.le_antisymm (Nat.not_lt.mp hyx) (Nat.not_lt.mp hxy)
            simp only [hxy, hyx, if_false] at h1
            by_cases hyz : y.toNat < z.toNat
            · have : x.toNat < z.toNat := hxyeq ▸ hyz
              simp [this]
            · by_cases hzy : z.toNat < y.toNat
              · simp [hyz, hzy] at h2
              · have hyzeq : y.toNat = z.toNat :=
                  Nat.le_antisymm (Nat.not_lt.mp hzy) (Nat.not_lt.mp hyz)
                have hxz : ¬ x.toNat < z.toNat := by
                  rw [hxyeq, hyzeq]; exact Nat.lt_irrefl _
                have hzx : ¬ z.toNat < x.toNat := by
                  rw [hxyeq, hyzeq]; exact Nat.lt_irrefl _
                simp only [hyz, hzy, if_false] at h2
                simp [hxz, hzx, ih ys zs h1 h2]

theorem charsLt_conn (a b : List Char) (h1 : charsLt a b = false)
    (h2 : charsLt b a = false) : a = b := by
  induction a generalizing b with
  | nil =>
    cases b with
    | nil => rfl
    | cons y ys => simp [charsLt] at h1
  | cons x xs ih =>
    cases b with
    | nil => simp [charsLt] at h2
    | cons y ys =>
      simp only [charsLt] at h1 h2
      by_cases hxy : x.toNat < y.toNat
      · simp [hxy] at h1
      · by_cases hyx : y.toNat < x.toNat
        · simp [hxy, hyx] at h2
        · have hxyeq : x = y := char_eq_of_toNat_eq
            (Nat.le_antisymm (Nat.not_lt.mp hyx) (Nat.not_lt.mp hxy))
        
          simp only [hxy, hyx, if_false] at h1 h2
          rw [hxyeq, ih ys h1 h2]

theorem charsLt_ne (a b : List Char) (h : charsLt a b = true) : a ≠ b := by
  intro hc
  rw [hc, charsLt_irrefl] at h
  exact Bool.false_ne_true h

-- ### Digit printing round-trip

theorem natVal_append_digit (ds : List Char) (c : Char) :
    natVal (ds ++ [c]) = natVal ds * 10 + digitVal c := by
  unfold natVal
  rw [List.foldl_append]
  rfl

theorem char_toNat_ofNat {n : Nat} (h : n < 55296) : (Char.ofNat n).toNat = n := by
  have hv : n.isValidChar := Or.inl h
  unfold Char.ofNat
  rw [dif_pos hv]
  unfold Char.ofNatAux Char.toNat
  simp [UInt32.toNat, UInt32.ofNat', BitVec.toNat_ofNatLt]

theorem natCharsAux_spec (fuel n : Nat) (h : n < fuel) :
    natCharsAux fuel n ≠ [] ∧
    (∀ c ∈ natCharsAux fuel n, isDigitChar c = true) ∧
    natVal (natCharsAux fuel n).reverse = n ∧
    (1 ≤ n → (natCharsAux fuel n).getLast? ≠ some '0') ∧
    (n < 10 → natCharsAux fuel n = [Char.ofNat (48 + n)]) := by
  induction fuel generalizing n with
  | zero => omega
  | succ f ih =>
    by_cases h10 : n < 10
    · have hsmall : natCharsAux (f + 1) n = [Char.ofNat (48 + n)] := by
        simp [natCharsAux, h10]
      refine ⟨by simp [hsmall], ?_, ?_, ?_, fun _ => hsmall⟩
      · intro c hc
        rw [hsmall] at hc
        simp only [List.mem_singleton] at hc
        subst hc
        simp only [isDigitChar, char_toNat_ofNat (show 48 + n < 55296 by omega),
          Bool.and_eq_true, decide_eq_true_eq]
        omega
      · rw [hsmall]
        simp only [List.reverse_singleton, natVal, List.foldl_cons, List.foldl_nil]
        simp only [digitVal, char_toNat_ofNat (show 48 + n < 55296 by omega)]
        omega
      · intro h1
        rw [hsmall]
        simp only [List.getLast?_singleton, ne_eq, Option.some.injEq]
        intro hc
        have h2 := congrArg Char.toNat hc
        rw [char_toNat_ofNat (show 48 + n < 55296 by omega)] at h2
        have h3 : ('0' : Char).toNat = 48 := by decide
        omega
    · have hdiv : n / 10 < f := by
        have hlt : n / 10 < n := Nat.div_lt_self (by omega) (by omega)
        omega
      obtain ⟨ihne, ihdig, ihval, ihlead, _⟩ := ih (n / 10) hdiv
      have hstep : natCharsAux (f + 1) n = Char.ofNat (48 + n % 10) :: natCharsAux f (n / 10) := by
        simp [natCharsAux, h10]
      have hm10 : 48 + n % 10 < 55296 := by omega
      refine ⟨by simp [hstep], ?_, ?_, ?_, by intro hc; omega⟩
      · intro c hc
        rw [hstep] at hc
        rcases List.mem_cons.mp hc with hc | hc
        · subst hc
          simp only [isDigitChar, char_toNat_ofNat hm10, Bool.and_eq_true, decide_eq_true_eq]
          omega
        · exact ihdig c hc
      · rw [hstep, List.reverse_cons, natVal_append_digit, ihval]
        simp only [digitVal, char_toNat_ofNat hm10]
        omega
      · intro _
        rw [hstep]
        cases haux : natCharsAux f (n / 10) with
        | nil => exact absurd haux ihne
        | cons b t =>
          rw [List.getLast?_cons_cons]
          rw [haux] at ihlead
          exact ihlead (by omega)

theorem natChars_nonempty (n : Nat) : natChars n ≠ [] := by
  have h := (natCharsAux_spec (n + 1) n (by omega)).1
  unfold natChars
  simpa using h

theorem natChars_digits (n : Nat) : ∀ c ∈ natChars n, isDigitChar c = true := by
  intro c hc
  have h := (natCharsAux_spec (n + 1) n (by omega)).2.1
  exact h c (List.mem_reverse.mp hc)

theorem natChars_val (n : Nat) : natVal (natChars n) = n :=
  (natCharsAux_spec (n + 1) n (by omega)).2.2.1

theorem natChars_small (n : Nat) (h : n < 10) : natChars n = [Char.ofNat (48 + n)] := by
  unfold natChars
  rw [(natCharsAux_spec (n + 1) n (by omega)).2.2.2.2 h]
  rfl

theorem natChars_head_ne_zero (n : Nat) (h : 1 ≤ n) :
    (natChars n).head? ≠ some '0' := by
  have hl := (natCharsAux_spec (n + 1) n (by omega)).2.2.2.1 h
  unfold natChars
  rw [List.head?_reverse]
  exact hl

-- ### takeWhile / dropWhile / skipWs lemmas

theorem takeWhile_append_all (p : Char → Bool) (rest : List Char)
    (hrest : ∀ c, rest.head? = some c → p c = false) :
    ∀ ds : List Char, (∀ c ∈ ds, p c = true) →
      (ds ++ rest).takeWhile p = ds ∧ (ds ++ rest).dropWhile p = rest := by
  intro ds
  induction ds with
  | nil =>
    intro _
    cases rest with
    | nil => exact ⟨rfl, rfl⟩
    | cons r t =>
      have hr := hrest r rfl
      simp [List.takeWhile_cons, List.dropWhile_cons, hr]
  | cons d ds ih =>
    intro hds
    have hd := hds d (by simp)
    have ih2 := ih (fun c hc => hds c (by simp [hc]))
    simp [List.takeWhile_cons, List.dropWhile_cons, hd, ih2.1, ih2.2]

theorem skipWs_all_append (ws cs : List Char) (h : ∀ c ∈ ws, isJsonWsChar c = true) :
    skipWs (ws ++ cs) = skipWs cs := by
  induction ws with
  | nil => rfl
  | cons w t ih =>
    have hw := h w (by simp)
    unfold skipWs
    rw [List.cons_append, List.dropWhile_cons, if_pos hw]
    exact ih (fun c hc => h c (by simp [hc]))

theorem skipWs_indent (k : Nat) (cs : List Char) :
    skipWs (indentChars k ++ cs) = skipWs cs := by
  apply skipWs_all_append
  intro c hc
  rw [List.eq_of_mem_replicate hc]
  decide

theorem skipWs_cons_ws (c : Char) (cs : List Char) (h : isJsonWsChar c = true) :
    skipWs (c :: cs) = skipWs cs := by
  unfold skipWs
  rw [List.dropWhile_cons, if_pos h]

theorem skipWs_cons_nonws (c : Char) (cs : List Char) (h : isJsonWsChar c = false) :
    skipWs (c :: cs) = c :: cs := by
  unfold skipWs
  rw [List.dropWhile_cons, if_neg (by simp [h])]

-- ### Number round-trip

theorem parseNumberChars_intChars (n : Int) (rest : List Char)
    (hrest : ∀ c, rest.head? = some c →
      isDigitChar c = false ∧ c ≠ '.' ∧ c ≠ 'e' ∧ c ≠ 'E') :
    parseNumberChars (intChars n ++ rest) = some (Json.num n, rest) := by
  have hdigfalse : ∀ c, rest.head? = some c → isDigitChar c = false :=
    fun c hc => (hrest c hc).1
  cases n with
  | ofNat m =>
    have hdig := natChars_digits m
    have hne := natChars_nonempty m
    have htake := takeWhile_append_all isDigitChar rest hdigfalse (natChars m) hdig
    have hnotminus : ((natChars m ++ rest).head? == some '-') = false := by
      cases hnc : natChars m with
      | nil => exact absurd hnc hne
      | cons c cs =>
        have hc : isDigitChar c = true := hdig c (by rw [hnc]; simp)
        simp only [List.cons_append, List.head?_cons]
        rw [beq_eq_false_iff_ne]
        intro hcm
        injection hcm with hcm
        subst hcm
        simp [isDigitChar] at hc
    have hlead : ¬ (1 < (natChars m).length ∧ (natChars m).head? = some '0') := by
      rintro ⟨hlen, hhead⟩
      by_cases hm : m < 10
      · rw [natChars_small m hm] at hlen
        simp at hlen
      · exact natChars_head_ne_zero m (by omega) hhead
    show parseNumberChars (natChars m ++ rest) = some (Json.num (Int.ofNat m), rest)
    unfold parseNumberChars
    simp only [hnotminus, if_false, Bool.false_eq_true, htake.1, htake.2]
    rw [if_neg hne, if_neg hlead]
    rw [if_neg (by
      rintro (hc | hc | hc) <;>
        · rcases hrec : rest.head? with _ | c
          · rw [hrec] at hc; exact Option.noConfusion hc
          · rw [hrec] at hc
            obtain ⟨_, h1, h2, h3⟩ := hrest c hrec
            injection hc with hc
            subst hc
            first
              | exact h1 rfl
              | exact h2 rfl
              | exact h3 rfl)]
    rw [natChars_val]
    rfl
  | negSucc m =>
    have hdig := natChars_digits (m + 1)
    have hne := natChars_nonempty (m + 1)
    have htake := takeWhile_append_all isDigitChar rest hdigfalse (natChars (m + 1)) hdig
    have hlead : ¬ (1 < (natChars (m + 1)).length ∧ (natChars (m + 1)).head? = some '0') := by
      rintro ⟨hlen, hhead⟩
      by_cases hm : m + 1 < 10
      · rw [natChars_small (m + 1) hm] at hlen
        simp at hlen
      · exact natChars_head_ne_zero (m + 1) (by omega) hhead
    show parseNumberChars (('-' :: natChars (m + 1)) ++ rest) = some (Json.num (Int.negSucc m), rest)
    unfold parseNumberChars
    simp only [List.cons_append, List.head?_cons, List.tail_cons, beq_self_eq_true, if_true]
    simp only [htake.1, htake.2]
    rw [if_neg hne, if_neg hlead]
    rw [if_neg (by
      rintro (hc | hc | hc) <;>
        · rcases hrec : rest.head? with _ | c
          · rw [hrec] at hc; exact Option.noConfusion hc
          · rw [hrec] at hc
            obtain ⟨_, h1, h2, h3⟩ := hrest c hrec
            injection hc with hc
            subst hc
            first
              | exact h1 rfl
              | exact h2 rfl
              | exact h3 rfl)]
    rw [natChars_val]
    have : -((m + 1 : Nat) : Int) = Int.negSucc m := by
      simp [Int.negSucc_eq]
    rw [this]

-- ### String escaping round-trip

theorem hexVal_hexDigitChar (d : Nat) (h : d < 16) : hexVal (hexDigitChar d) = some d := by
  unfold hexDigitChar hexVal
  by_cases h10 : d < 10
  · rw [if_pos h10, char_toNat_ofNat (show 48 + d < 55296 by omega)]
    rw [if_pos (by omega)]
    congr 1
    omega
  · rw [if_neg h10, char_toNat_ofNat (show 87 + d < 55296 by omega)]
    rw [if_neg (by omega), if_pos (by omega)]
    congr 1
    omega

theorem hex4_eval (a b c d : Char) (x y z w : Nat) (ha : hexVal a = some x)
    (hb : hexVal b = some y) (hc : hexVal c = some z) (hd : hexVal d = some w) :
    hex4 a b c d = some (((x * 16 + y) * 16 + z) * 16 + w) := by
  unfold hex4
  rw [ha, hb, hc, hd]

theorem parseUnicodeEsc_eval (a b c d : Char) (cs3 : List Char) (n : Nat)
    (hh : hex4 a b c d = some n) (hn : n < 55296) :
    parseUnicodeEsc (a :: b :: c :: d :: cs3) =
      (parseStringBody cs3).map (fun r => (Char.ofNat n :: r.1, r.2)) := by
  unfold parseUnicodeEsc
  rw [hh]
  show (if n < 55296 ∨ 57344 ≤ n then
      (parseStringBody cs3).map (fun r => (Char.ofNat n :: r.1, r.2))
    else if n ≤ 56319 then parseLowSurrogate n cs3
    else none) = _
  rw [if_pos (Or.inl hn)]

theorem parseStringBody_escape (s rest : List Char) :
    parseStringBody (escapeChars s ++ quoteC :: rest) = some (s, rest) := by
  induction s with
  | nil =>
    show parseStringBody (quoteC :: rest) = some ([], rest)
    unfold parseStringBody
    rw [if_pos rfl]
  | cons c t ih =>
    have hassoc : escapeChars (c :: t) ++ quoteC :: rest =
        escapeChar c ++ (escapeChars t ++ quoteC :: rest) := by
      show (escapeChar c ++ escapeChars t) ++ quoteC :: rest = _
      rw [List.append_assoc]
    rw [hassoc]
    by_cases h1 : c = quoteC
    · subst h1
      have he : escapeChar quoteC = [backslashC, quoteC] := by
        unfold escapeChar
        rw [if_pos rfl]
      rw [he]
      show parseStringBody
        (backslashC :: quoteC :: (escapeChars t ++ quoteC :: rest)) = _
      unfold parseStringBody
      rw [if_neg (by decide), if_pos rfl]
      unfold parseEscape
      rw [if_pos (Or.inl rfl), ih]
      rfl
    · by_cases h2 : c = backslashC
      · subst h2
        have he : escapeChar backslashC = [backslashC, backslashC] := by
          unfold escapeChar
          rw [if_neg (by decide), if_pos rfl]
        rw [he]
        show parseStringBody
          (backslashC :: backslashC :: (escapeChars t ++ quoteC :: rest)) = _
        unfold parseStringBody
        rw [if_neg (by decide), if_pos rfl]
        unfold parseEscape
        rw [if_pos (Or.inr (Or.inl rfl)), ih]
        rfl
      · by_cases h3 : c.toNat = 8
        · have hc8 : c = Char.ofNat 8 := char_eq_of_toNat_eq
            (by rw [h3, char_toNat_ofNat (by omega)])
          have he : escapeChar c = [backslashC, 'b'] := by
            unfold escapeChar
            rw [if_neg h1, if_neg h2, if_pos h3]
          rw [he]
          show parseStringBody
            (backslashC :: 'b' :: (escapeChars t ++ quoteC :: rest)) = _
          unfold parseStringBody
          rw [if_neg (by decide), if_pos rfl]
          unfold parseEscape
          rw [if_neg (by decide), if_pos rfl, ih]
          rw [← hc8]
          rfl
        · by_cases h4 : c.toNat = 9
          · have hc9 : c = Char.ofNat 9 := char_eq_of_toNat_eq
              (by rw [h4, char_toNat_ofNat (by omega)])
            have he : escapeChar c = [backslashC, 't'] := by
              unfold escapeChar
              rw [if_neg h1, if_neg h2, if_neg h3, if_pos h4]
            rw [he]
            show parseStringBody
              (backslashC :: 't' :: (escapeChars t ++ quoteC :: rest)) = _
            unfold parseStringBody
            rw [if_neg (by decide), if_pos rfl]
            unfold parseEscape
            rw [if_neg (by decide), if_neg (by decide), if_neg (by decide),
              if_neg (by decide), if_neg (by decide), if_pos rfl, ih]
            rw [← hc9]
            rfl
          · by_cases h5 : c.toNat = 10
            · have hc10 : c = Char.ofNat 10 := char_eq_of_toNat_eq
                (by rw [h5, char_toNat_ofNat (by omega)])
              have he : escapeChar c = [backslashC, 'n'] := by
                unfold escapeChar
                rw [if_neg h1, if_neg h2, if_neg h3, if_neg h4, if_pos h5]
              rw [he]
              show parseStringBody
                (backslashC :: 'n' :: (escapeChars t ++ quoteC :: rest)) = _
              unfold parseStringBody
              rw [if_neg (by decide), if_pos rfl]
              unfold parseEscape
              rw [if_neg (by decide), if_neg (by decide), if_neg (by decide),
                if_pos rfl, ih]
              rw [← hc10]
              rfl
            · by_cases h6 : c.toNat = 12
              · have hc12 : c = Char.ofNat 12 := char_eq_of_toNat_eq
                  (by rw [h6, char_toNat_ofNat (by omega)])
                have he : escapeChar c = [backslashC, 'f'] := by
                  unfold escapeChar
                  rw [if_neg h1, if_neg h2, if_neg h3, if_neg h4, if_neg h5, if_pos h6]
                rw [he]
                show parseStringBody
                  (backslashC :: 'f' :: (escapeChars t ++ quoteC :: rest)) = _
                unfold parseStringBody
                rw [if_neg (by decide), if_pos rfl]
                unfold parseEscape
                rw [if_neg (by decide), if_neg (by decide), if_pos rfl, ih]
                rw [← hc12]
                rfl
              · by_cases h7 : c.toNat = 13
                · have hc13 : c = Char.ofNat 13 := char_eq_of_toNat_eq
                    (by rw [h7, char_toNat_ofNat (by omega)])
                  have he : escapeChar c = [backslashC, 'r'] := by
                    unfold escapeChar
                    rw [if_neg h1, if_neg h2, if_neg h3, if_neg h4, if_neg h5,
                      if_neg h6, if_pos h7]
                  rw [he]
                  show parseStringBody
                    (backslashC :: 'r' :: (escapeChars t ++ quoteC :: rest)) = _
                  unfold parseStringBody
                  rw [if_neg (by decide), if_pos rfl]
                  unfold parseEscape
                  rw [if_neg (by decide), if_neg (by decide), if_neg (by decide),
                    if_neg (by decide), if_pos rfl, ih]
                  rw [← hc13]
                  rfl
                · by_cases h8 : c.toNat < 32
                  · have he : escapeChar c = [backslashC, 'u', '0', '0',
                        hexDigitChar (c.toNat / 16), hexDigitChar (c.toNat % 16)] := by
                      unfold escapeChar
                      rw [if_neg h1, if_neg h2, if_neg h3, if_neg h4, if_neg h5,
                        if_neg h6, if_neg h7, if_pos h8]
                    rw [he]
                    show parseStringBody (backslashC :: 'u' :: '0' :: '0' ::
                      hexDigitChar (c.toNat / 16) :: hexDigitChar (c.toNat % 16) ::
                      (escapeChars t ++ quoteC :: rest)) = _
                    unfold parseStringBody
                    rw [if_neg (by decide), if_pos rfl]
                    unfold parseEscape
                    rw [if_neg (by decide), if_neg (by decide), if_neg (by decide),
                      if_neg (by decide), if_neg (by decide), if_neg (by decide),
                      if_pos rfl]
                    have hhex := hex4_eval '0' '0'
                      (hexDigitChar (c.toNat / 16)) (hexDigitChar (c.toNat % 16))
                      0 0 (c.toNat / 16) (c.toNat % 16)
                      (by decide) (by decide)
                      (hexVal_hexDigitChar _ (by omega))
                      (hexVal_hexDigitChar _ (by omega))
                    have hval : ((0 * 16 + 0) * 16 + c.toNat / 16) * 16 + c.toNat % 16 =
                        c.toNat := by omega
                    rw [hval] at hhex
                    rw [parseUnicodeEsc_eval _ _ _ _ _ _ hhex (by omega), ih]
                    simp only [Option.map_some', Char.ofNat_toNat]
                  · have he : escapeChar c = [c] := by
                      unfold escapeChar
                      rw [if_neg h1, if_neg h2, if_neg h3, if_neg h4, if_neg h5,
                        if_neg h6, if_neg h7, if_neg h8]
                    rw [he]
                    show parseStringBody (c :: (escapeChars t ++ quoteC :: rest)) = _
                    unfold parseStringBody
                    rw [if_neg h1, if_neg h2, if_neg h8, ih]
                    rfl

-- ### Sorted-field insertion lemmas

theorem string_eq_of_data_eq {a b : String} (h : a.data = b.data) : a = b := by
  cases a
  cases b
  exact congrArg String.mk h

theorem insFields_of_fkeysLt (k : String) (v : Json) :
    ∀ (acc : JsonFields), fkeysLt acc k = true →
      insFields k v acc = fconcat acc (JsonFields.cons k v JsonFields.nil)
  | JsonFields.nil, _ => rfl
  | JsonFields.cons k' v' t, h => by
    simp only [fkeysLt, Bool.and_eq_true] at h
    obtain ⟨hk, ht⟩ := h
    have hlt : charsLt k.data k'.data = false := charsLt_asymm _ _ hk
    have hne : k ≠ k' := by
      intro hc
      subst hc
      rw [charsLt_irrefl] at hk
      exact Bool.false_ne_true hk
    unfold insFields
    rw [if_neg (by simp [hlt]), if_neg hne]
    show JsonFields.cons k' v' (insFields k v t) = JsonFields.cons k' v' (fconcat t _)
    rw [insFields_of_fkeysLt k v t ht]

theorem fkeysLt_fconcat (t : JsonFields) (k : String) :
    ∀ (acc : JsonFields), fkeysLt acc k = true → fkeysLt t k = true →
      fkeysLt (fconcat acc t) k = true
  | JsonFields.nil, _, h2 => h2
  | JsonFields.cons k' v' t', h1, h2 => by
    simp only [fkeysLt, Bool.and_eq_true] at h1
    show fkeysLt (JsonFields.cons k' v' (fconcat t' t)) k = true
    simp only [fkeysLt, Bool.and_eq_true]
    exact ⟨h1.1, fkeysLt_fconcat t k t' h1.2 h2⟩

theorem ltKeys_insFields (k0 k : String) (v : Json) (t : JsonFields)
    (hlt : charsLt k0.data k.data = true) (h : ltKeys k0 t = true) :
    ltKeys k0 (insFields k v t) = true := by
  cases t with
  | nil => simpa [insFields, ltKeys] using hlt
  | cons k' v' t' =>
    unfold insFields
    by_cases h1 : charsLt k.data k'.data = true
    · rw [if_pos h1]
      simpa [ltKeys] using hlt
    · rw [if_neg h1]
      by_cases h2 : k = k'
      · rw [if_pos h2]
        simpa [ltKeys] using hlt
      · rw [if_neg h2]
        simpa [ltKeys] using h

theorem insFields_canon (k : String) (v : Json) :
    ∀ (m : JsonFields), canonF m = true → canonJ v = true →
      canonF (insFields k v m) = true
  | JsonFields.nil, _, hv => by
    show canonF (JsonFields.cons k v JsonFields.nil) = true
    simp [canonF, ltKeys, hv]
  | JsonFields.cons k' v' t, hm, hv => by
    simp only [canonF, Bool.and_eq_true] at hm
    obtain ⟨⟨hkeys, hv'⟩, ht⟩ := hm
    unfold insFields
    by_cases h1 : charsLt k.data k'.data = true
    · rw [if_pos h1]
      show canonF (JsonFields.cons k v (JsonFields.cons k' v' t)) = true
      simp only [canonF, Bool.and_eq_true, ltKeys]
      exact ⟨⟨h1, hv⟩, ⟨hkeys, hv'⟩, ht⟩
    · rw [if_neg h1]
      by_cases h2 : k = k'
      · rw [if_pos h2]
        subst h2
        show canonF (JsonFields.cons k v t) = true
        simp only [canonF, Bool.and_eq_true]
        exact ⟨⟨hkeys, hv⟩, ht⟩
      · rw [if_neg h2]
        have h1f : charsLt k.data k'.data = false := by
          cases hx : charsLt k.data k'.data
          · rfl
          · exact absurd hx h1
        have hlt : charsLt k'.data k.data = true := by
          cases hx : charsLt k'.data k.data
          · exact absurd (string_eq_of_data_eq (charsLt_conn _ _ h1f hx)) h2
          · rfl
        show canonF (JsonFields.cons k' v' (insFields k v t)) = true
        simp only [canonF, Bool.and_eq_true]
        exact ⟨⟨ltKeys_insFields k' k v t hlt hkeys, hv'⟩, insFields_canon k v t ht hv⟩

theorem canonL_jlAppend (v : Json) :
    ∀ (acc : JsonList), canonL acc = true → canonJ v = true →
      canonL (jlAppend acc v) = true
  | JsonList.nil, _, hv => by
    show canonL (JsonList.cons v JsonList.nil) = true
    simp [canonL, hv]
  | JsonList.cons h t, hacc, hv => by
    simp only [canonL, Bool.and_eq_true] at hacc
    show canonL (JsonList.cons h (jlAppend t v)) = true
    simp only [canonL, Bool.and_eq_true]
    exact ⟨hacc.1, canonL_jlAppend v t hacc.2 hv⟩

-- ### The parser only produces canonical values

theorem parseNumberChars_canon (cs : List Char) (v : Json) (rest : List Char)
    (h : parseNumberChars cs = some (v, rest)) : canonJ v = true := by
  simp only [parseNumberChars] at h
  repeat' split at h
  all_goals
    first
      | exact Option.noConfusion h
      | (have h2 := Option.some.inj h
         have h3 := congrArg Prod.fst h2
         simp only at h3
         rw [← h3]
         rfl)

theorem parseV_canon : ∀ (fuel : Nat) (cs : List Char) (v : Json) (rest : List Char),
    (parseV fuel ParseTask.value cs = some (v, rest) → canonJ v = true) ∧
    (∀ acc, canonL acc = true →
      parseV fuel (ParseTask.elems acc) cs = some (v, rest) → canonJ v = true) ∧
    (∀ acc, canonF acc = true →
      parseV fuel (ParseTask.fields acc) cs = some (v, rest) → canonJ v = true) := by
  intro fuel
  induction fuel with
  | zero =>
    intro cs v rest
    refine ⟨fun h => ?_, fun _ _ h => ?_, fun _ _ h => ?_⟩ <;> simp [parseV] at h
  | succ f ih =>
    intro cs v rest
    refine ⟨?_, ?_, ?_⟩
    · intro h
      unfold parseV at h
      repeat' split at h
      all_goals
        first
          | exact Option.noConfusion h
          | exact parseNumberChars_canon _ _ _ h
          | exact (ih _ v rest).2.1 JsonList.nil rfl h
          | exact (ih _ v rest).2.2 JsonFields.nil rfl h
          | (have h2 := congrArg Prod.fst (Option.some.inj h)
             simp only at h2
             rw [← h2]
             rfl)
          | (rw [Option.map_eq_some'] at h
             obtain ⟨a, ha1, ha⟩ := h
             have h2 := congrArg Prod.fst ha
             simp only at h2
             rw [← h2]
             rfl)
    · intro acc hacc h
      unfold parseV at h
      split at h
      · exact Option.noConfusion h
      · rename_i v0 rest0 heq
        have hv0 : canonJ v0 = true := (ih _ v0 rest0).1 heq
        split at h
        · rename_i c rest2
          split at h
          · exact (ih _ v rest).2.1 (jlAppend acc v0)
              (canonL_jlAppend v0 acc hacc hv0) h
          · split at h
            · have h2 := congrArg Prod.fst (Option.some.inj h)
              simp only at h2
              rw [← h2]
              exact canonL_jlAppend v0 acc hacc hv0
            · exact Option.noConfusion h
        · exact Option.noConfusion h
    · intro acc hacc h
      unfold parseV at h
      split at h
      · rename_i c cs1
        split at h
        · split at h
          · exact Option.noConfusion h
          · rename_i kcs rest1 hkey
            split at h
            · rename_i c2 rest2
              split at h
              · split at h
                · exact Option.noConfusion h
                · rename_i v0 rest3 heq
                  have hv0 : canonJ v0 = true := (ih _ v0 rest3).1 heq
                  split at h
                  · rename_i c3 rest4
                    split at h
                    · exact (ih _ v rest).2.2 (insFields (String.mk kcs) v0 acc)
                        (insFields_canon (String.mk kcs) v0 acc hacc hv0) h
                    · split at h
                      · have h2 := congrArg Prod.fst (Option.some.inj h)
                        simp only at h2
                        rw [← h2]
                        exact insFields_canon (String.mk kcs) v0 acc hacc hv0
                      · exact Option.noConfusion h
                  · exact Option.noConfusion h
              · exact Option.noConfusion h
            · exact Option.noConfusion h
        · exact Option.noConfusion h
      · exact Option.noConfusion h

-- ### Round-trip: auxiliary definitions and leaf cases

/-- The text that may legitimately follow a printed value mid-document:
nothing, a comma, or the newline before a closing bracket. -/
def safeRest (rest : List Char) : Prop :=
  rest = [] ∨ rest.head? = some ',' ∨ rest.head? = some '\n'

theorem safeRest_num (rest : List Char) (h : safeRest rest) :
    ∀ c, rest.head? = some c →
      isDigitChar c = false ∧ c ≠ '.' ∧ c ≠ 'e' ∧ c ≠ 'E' := by
  intro c hc
  rcases h with h | h | h
  · rw [h] at hc
    exact Option.noConfusion hc
  · rw [h] at hc
    injection hc with hc
    subst hc
    exact ⟨by decide, by decide, by decide, by decide⟩
  · rw [h] at hc
    injection hc with hc
    subst hc
    exact ⟨by decide, by decide, by decide, by decide⟩

theorem intChars_head (n : Int) : ∃ c cs', intChars n = c :: cs' ∧
    (c = '-' ∨ isDigitChar c = true) := by
  cases n with
  | ofNat m =>
    cases hnc : natChars m with
    | nil => exact absurd hnc (natChars_nonempty m)
    | cons c cs =>
      exact ⟨c, cs, by simp [intChars, hnc],
        Or.inr (natChars_digits m c (by rw [hnc]; simp))⟩
  | negSucc m => exact ⟨'-', natChars (m + 1), rfl, Or.inl rfl⟩

theorem numStart_props (c : Char) (h : c = '-' ∨ isDigitChar c = true) :
    isJsonWsChar c = false ∧ ¬ c = 'n' ∧ ¬ c = 't' ∧ ¬ c = 'f' ∧ ¬ c = quoteC ∧
      ¬ c = '[' ∧ ¬ c = lbraceC ∧ ¬ c = ']' ∧ ¬ c = rbraceC := by
  rcases h with rfl | h
  · exact ⟨by decide, by decide, by decide, by decide, by decide, by decide, by decide,
      by decide, by decide⟩
  · simp only [isDigitChar, Bool.and_eq_true, decide_eq_true_eq] at h
    refine ⟨?_, ?_, ?_, ?_, ?_, ?_, ?_, ?_, ?_⟩
    · cases hx : isJsonWsChar c
      · rfl
      · exfalso
        simp only [isJsonWsChar, Bool.or_eq_true, decide_eq_true_eq] at hx
        omega
    all_goals
      · intro hc
        subst hc
        revert h
        decide

theorem skipWs_idem (cs : List Char) : skipWs (skipWs cs) = skipWs cs := by
  induction cs with
  | nil => rfl
  | cons c t ih =>
    by_cases h : isJsonWsChar c = true
    · rw [skipWs_cons_ws _ _ h]
      exact ih
    · have hf : isJsonWsChar c = false := by
        cases hx : isJsonWsChar c
        · rfl
        · exact absurd hx h
      rw [skipWs_cons_nonws _ _ hf, skipWs_cons_nonws _ _ hf]

theorem parseV_value_skipWs (f : Nat) (cs : List Char) :
    parseV (f + 1) ParseTask.value cs = parseV (f + 1) ParseTask.value (skipWs cs) := by
  unfold parseV
  rw [skipWs_idem]

theorem parse_pretty_null (f : Nat) (rest : List Char) :
    parseV (f + 1) ParseTask.value (['n', 'u', 'l', 'l'] ++ rest) =
      some (Json.null, rest) := by
  show parseV (f + 1) ParseTask.value ('n' :: 'u' :: 'l' :: 'l' :: rest) = _
  unfold parseV
  rw [skipWs_cons_nonws _ _ (by decide)]
  rfl

theorem parse_pretty_true (f : Nat) (rest : List Char) :
    parseV (f + 1) ParseTask.value (['t', 'r', 'u', 'e'] ++ rest) =
      some (Json.bool true, rest) := by
  show parseV (f + 1) ParseTask.value ('t' :: 'r' :: 'u' :: 'e' :: rest) = _
  unfold parseV
  rw [skipWs_cons_nonws _ _ (by decide)]
  rfl

theorem parse_pretty_false (f : Nat) (rest : List Char) :
    parseV (f + 1) ParseTask.value (['f', 'a', 'l', 's', 'e'] ++ rest) =
      some (Json.bool false, rest) := by
  show parseV (f + 1) ParseTask.value ('f' :: 'a' :: 'l' :: 's' :: 'e' :: rest) = _
  unfold parseV
  rw [skipWs_cons_nonws _ _ (by decide)]
  rfl

theorem parse_pretty_num (f : Nat) (n : Int) (rest : List Char) (hsafe : safeRest rest) :
    parseV (f + 1) ParseTask.value (intChars n ++ rest) = some (Json.num n, rest) := by
  obtain ⟨c, cs', hnc, hcd⟩ := intChars_head n
  obtain ⟨hws, hn, ht, hf, hq, hbr, hbrc, _, _⟩ := numStart_props c hcd
  rw [hnc]
  show parseV (f + 1) ParseTask.value (c :: (cs' ++ rest)) = _
  unfold parseV
  rw [skipWs_cons_nonws _ _ hws]
  simp only [if_neg hn, if_neg ht, if_neg hf, if_neg hq, if_neg hbr, if_neg hbrc]
  have hback : c :: (cs' ++ rest) = intChars n ++ rest := by
    rw [hnc]
    rfl
  rw [hback]
  exact parseNumberChars_intChars n rest (safeRest_num rest hsafe)

theorem parse_pretty_str (f : Nat) (s : String) (rest : List Char) :
    parseV (f + 1) ParseTask.value
      ((quoteC :: escapeChars s.data ++ [quoteC]) ++ rest) = some (Json.str s, rest) := by
  show parseV (f + 1) ParseTask.value
    (quoteC :: (escapeChars s.data ++ [quoteC] ++ rest)) = _
  unfold parseV
  rw [skipWs_cons_nonws _ _ (by decide)]
  simp only [if_neg (by decide : ¬ quoteC = 'n'), if_neg (by decide : ¬ quoteC = 't'),
    if_neg (by decide : ¬ quoteC = 'f'), if_pos rfl]
  have hassoc : escapeChars s.data ++ [quoteC] ++ rest =
      escapeChars s.data ++ quoteC :: rest := by
    rw [List.append_assoc]
    rfl
  rw [hassoc, parseStringBody_escape]
  have hmk : String.mk s.data = s := by
    cases s
    rfl
  simp [hmk]

-- ### Round-trip: array and object plumbing

/-- The characters a non-empty element list contributes inside a pretty
array, starting at the newline after the opening bracket. -/
def elemsChars (k : Nat) : JsonList → List Char
  | .nil => []
  | .cons x xs => '\n' :: indentChars (k + 1) ++ prettyJ (k + 1) x ++ prettyTailL k xs

/-- The characters a non-empty member list contributes inside a pretty
object, starting at the newline after the opening brace. -/
def fieldsChars (k : Nat) : JsonFields → List Char
  | .nil => []
  | .cons key v fs =>
    '\n' :: indentChars (k + 1) ++ (quoteC :: escapeChars key.data ++ [quoteC]) ++
      ':' :: ' ' :: prettyJ (k + 1) v ++ prettyTailF k fs

theorem prettyJ_arr_cons_append (k : Nat) (x : Json) (xs : JsonList) (rest : List Char) :
    prettyJ k (Json.arr (JsonList.cons x xs)) ++ rest =
      '[' :: (elemsChars k (JsonList.cons x xs) ++
        ('\n' :: (indentChars k ++ ']' :: rest))) := by
  show ('[' :: '\n' :: indentChars (k + 1) ++ prettyJ (k + 1) x ++ prettyTailL k xs ++
      '\n' :: indentChars k ++ [']']) ++ rest = _
  simp [elemsChars, List.append_assoc]

theorem prettyJ_obj_cons_append (k : Nat) (key : String) (v : Json) (fs : JsonFields)
    (rest : List Char) :
    prettyJ k (Json.obj (JsonFields.cons key v fs)) ++ rest =
      lbraceC :: (fieldsChars k (JsonFields.cons key v fs) ++
        ('\n' :: (indentChars k ++ rbraceC :: rest))) := by
  show (lbraceC :: '\n' :: indentChars (k + 1) ++
      (quoteC :: escapeChars key.data ++ [quoteC]) ++
      ':' :: ' ' :: prettyJ (k + 1) v ++ prettyTailF k fs ++
      '\n' :: indentChars k ++ [rbraceC]) ++ rest = _
  simp [fieldsChars, List.append_assoc]

theorem prettyJ_head_nonws (v : Json) (k : Nat) :
    ∃ c cs', prettyJ k v = c :: cs' ∧ isJsonWsChar c = false ∧
      ¬ c = ']' ∧ ¬ c = rbraceC := by
  cases v with
  | null => exact ⟨'n', _, rfl, by decide, by decide, by decide⟩
  | bool b =>
    cases b with
    | false => exact ⟨'f', _, rfl, by decide, by decide, by decide⟩
    | true => exact ⟨'t', _, rfl, by decide, by decide, by decide⟩
  | num n =>
    obtain ⟨c, cs', hnc, hcd⟩ := intChars_head n
    obtain ⟨hws, _, _, _, _, _, _, hsq, hbr⟩ := numStart_props c hcd
    exact ⟨c, cs', by show intChars n = _; rw [hnc], hws, hsq, hbr⟩
  | str s => exact ⟨quoteC, _, rfl, by decide, by decide, by decide⟩
  | arr es =>
    cases es with
    | nil => exact ⟨'[', _, rfl, by decide, by decide, by decide⟩
    | cons x xs => exact ⟨'[', _, rfl, by decide, by decide, by decide⟩
  | obj fs =>
    cases fs with
    | nil => exact ⟨lbraceC, _, rfl, by decide, by decide, by decide⟩
    | cons key v' t => exact ⟨lbraceC, _, rfl, by decide, by decide, by decide⟩

theorem skipWs_prettyJ (v : Json) (k : Nat) (tail : List Char) :
    skipWs (prettyJ k v ++ tail) = prettyJ k v ++ tail := by
  obtain ⟨c, cs', heq, hws, _, _⟩ := prettyJ_head_nonws v k
  rw [heq]
  show skipWs (c :: (cs' ++ tail)) = _
  rw [skipWs_cons_nonws _ _ hws]
  rfl

theorem safeRest_tailL (k : Nat) (xs : JsonList) (tail : List Char) :
    safeRest (prettyTailL k xs ++ '\n' :: tail) := by
  cases xs with
  | nil => exact Or.inr (Or.inr rfl)
  | cons y ys => exact Or.inr (Or.inl rfl)

theorem safeRest_tailF (k : Nat) (fs : JsonFields) (tail : List Char) :
    safeRest (prettyTailF k fs ++ '\n' :: tail) := by
  cases fs with
  | nil => exact Or.inr (Or.inr rfl)
  | cons key v t => exact Or.inr (Or.inl rfl)

theorem jlAppend_eq_concat (x : Json) : ∀ (acc : JsonList),
    jlAppend acc x = jlConcat acc (JsonList.cons x JsonList.nil)
  | JsonList.nil => rfl
  | JsonList.cons h t => by
    show JsonList.cons h (jlAppend t x) = JsonList.cons h (jlConcat t _)
    rw [jlAppend_eq_concat x t]

theorem jlConcat_append (x : Json) : ∀ (acc tail : JsonList),
    jlConcat (jlAppend acc x) tail = jlConcat acc (JsonList.cons x tail)
  | JsonList.nil, tail => rfl
  | JsonList.cons h t, tail => by
    show JsonList.cons h (jlConcat (jlAppend t x) tail) =
      JsonList.cons h (jlConcat t _)
    rw [jlConcat_append x t tail]

theorem fconcat_assoc_single (k : String) (v : Json) : ∀ (acc t : JsonFields),
    fconcat (fconcat acc (JsonFields.cons k v JsonFields.nil)) t =
      fconcat acc (JsonFields.cons k v t)
  | JsonFields.nil, t => rfl
  | JsonFields.cons k' v' t', t => by
    show JsonFields.cons k' v' (fconcat (fconcat t' _) t) =
      JsonFields.cons k' v' (fconcat t' _)
    rw [fconcat_assoc_single k v t' t]

theorem fkeysLt_trans_head (key key2 : String)
    (hlt : charsLt key.data key2.data = true) : ∀ (acc : JsonFields),
    fkeysLt acc key = true → fkeysLt acc key2 = true
  | JsonFields.nil, _ => rfl
  | JsonFields.cons k' v' t, h => by
    simp only [fkeysLt, Bool.and_eq_true] at h ⊢
    exact ⟨charsLt_trans _ _ _ h.1 hlt, fkeysLt_trans_head key key2 hlt t h.2⟩

theorem parseV_value_lbracket_nil (f : Nat) (cs1 rest2 : List Char)
    (h : skipWs cs1 = ']' :: rest2) :
    parseV (f + 1) ParseTask.value ('[' :: cs1) = some (Json.arr JsonList.nil, rest2) := by
  conv_lhs => rw [parseV.eq_def]
  simp only [skipWs_cons_nonws '[' cs1 (by decide),
    if_neg (by decide : ¬ '[' = 'n'), if_neg (by decide : ¬ '[' = 't'),
    if_neg (by decide : ¬ '[' = 'f'), if_neg (by decide : ¬ '[' = quoteC),
    if_pos (rfl : '[' = '['), h, if_pos (rfl : (']' : Char) = ']'), if_true]

theorem parseV_value_lbracket_elems (f : Nat) (cs1 : List Char) (c2 : Char)
    (rest2 : List Char) (h : skipWs cs1 = c2 :: rest2) (hne : ¬ c2 = ']') :
    parseV (f + 1) ParseTask.value ('[' :: cs1) =
      parseV f (ParseTask.elems JsonList.nil) cs1 := by
  conv_lhs => rw [parseV.eq_def]
  simp only [skipWs_cons_nonws '[' cs1 (by decide),
    if_neg (by decide : ¬ '[' = 'n'), if_neg (by decide : ¬ '[' = 't'),
    if_neg (by decide : ¬ '[' = 'f'), if_neg (by decide : ¬ '[' = quoteC),
    if_pos (rfl : '[' = '['), h, if_neg hne, if_true]

theorem parseV_value_lbrace_nil (f : Nat) (cs1 rest2 : List Char)
    (h : skipWs cs1 = rbraceC :: rest2) :
    parseV (f + 1) ParseTask.value (lbraceC :: cs1) =
      some (Json.obj JsonFields.nil, rest2) := by
  conv_lhs => rw [parseV.eq_def]
  simp only [skipWs_cons_nonws lbraceC cs1 (by decide),
    if_neg (by decide : ¬ lbraceC = 'n'), if_neg (by decide : ¬ lbraceC = 't'),
    if_neg (by decide : ¬ lbraceC = 'f'), if_neg (by decide : ¬ lbraceC = quoteC),
    if_neg (by decide : ¬ lbraceC = '['), if_pos (rfl : lbraceC = lbraceC), h,
    if_pos (rfl : rbraceC = rbraceC), if_true]

theorem parseV_value_lbrace_fields (f : Nat) (cs1 : List Char) (c2 : Char)
    (rest2 : List Char) (h : skipWs cs1 = c2 :: rest2) (hne : ¬ c2 = rbraceC) :
    parseV (f + 1) ParseTask.value (lbraceC :: cs1) =
      parseV f (ParseTask.fields JsonFields.nil) cs1 := by
  conv_lhs => rw [parseV.eq_def]
  simp only [skipWs_cons_nonws lbraceC cs1 (by decide),
    if_neg (by decide : ¬ lbraceC = 'n'), if_neg (by decide : ¬ lbraceC = 't'),
    if_neg (by decide : ¬ lbraceC = 'f'), if_neg (by decide : ¬ lbraceC = quoteC),
    if_neg (by decide : ¬ lbraceC = '['), if_pos (rfl : lbraceC = lbraceC), h,
    if_neg hne, if_true]

theorem parseV_elems_unfold (f : Nat) (acc : JsonList) (cs : List Char) :
    parseV (f + 1) (ParseTask.elems acc) cs =
      (match parseV f ParseTask.value cs with
       | none => none
       | some (v, rest) =>
         match skipWs rest with
         | c :: rest2 =>
           if c = ',' then parseV f (ParseTask.elems (jlAppend acc v)) rest2
           else if c = ']' then some (Json.arr (jlAppend acc v), rest2)
           else none
         | [] => none) := by
  rw [parseV.eq_def]

theorem parseV_fields_unfold (f : Nat) (acc : JsonFields) (cs : List Char) :
    parseV (f + 1) (ParseTask.fields acc) cs =
      (match skipWs cs with
       | c :: cs1 =>
         if c = quoteC then
           match parseStringBody cs1 with
           | none => none
           | some (kcs, rest1) =>
             match skipWs rest1 with
             | c2 :: rest2 =>
               if c2 = ':' then
                 match parseV f ParseTask.value rest2 with
                 | none => none
                 | some (v, rest3) =>
                   match skipWs rest3 with
                   | c3 :: rest4 =>
                     if c3 = ',' then
                       parseV f (ParseTask.fields (insFields (String.mk kcs) v acc)) rest4
                     else if c3 = rbraceC then
                       some (Json.obj (insFields (String.mk kcs) v acc), rest4)
                     else none
                   | [] => none
               else none
             | [] => none
         else none
       | [] => none) := by
  rw [parseV.eq_def]

-- ### Round-trip: the main theorem

theorem jsize_pos : ∀ (v : Json), 1 ≤ jsize v
  | Json.null => le_refl 1
  | Json.bool _ => le_refl 1
  | Json.num _ => le_refl 1
  | Json.str _ => le_refl 1
  | Json.arr es => by show 1 ≤ 1 + lsize es; omega
  | Json.obj fs => by show 1 ≤ 1 + fsize fs; omega

theorem skipWs_end_bracket (k : Nat) (rest : List Char) :
    skipWs ('\n' :: (indentChars k ++ ']' :: rest)) = ']' :: rest := by
  rw [skipWs_cons_ws _ _ (by decide), skipWs_indent, skipWs_cons_nonws _ _ (by decide)]

theorem skipWs_end_brace (k : Nat) (rest : List Char) :
    skipWs ('\n' :: (indentChars k ++ rbraceC :: rest)) = rbraceC :: rest := by
  rw [skipWs_cons_ws _ _ (by decide), skipWs_indent, skipWs_cons_nonws _ _ (by decide)]

theorem skipWs_elemsChars (k : Nat) (x : Json) (xs : JsonList) (tail : List Char) :
    skipWs (elemsChars k (JsonList.cons x xs) ++ tail) =
      prettyJ (k + 1) x ++ (prettyTailL k xs ++ tail) := by
  have hre : elemsChars k (JsonList.cons x xs) ++ tail =
      '\n' :: (indentChars (k + 1) ++ (prettyJ (k + 1) x ++ (prettyTailL k xs ++ tail))) := by
    show ('\n' :: indentChars (k + 1) ++ prettyJ (k + 1) x ++ prettyTailL k xs) ++ tail = _
    simp [List.append_assoc]
  rw [hre, skipWs_cons_ws _ _ (by decide), skipWs_indent, skipWs_prettyJ]

theorem skipWs_fieldsChars (k : Nat) (key : String) (v : Json) (fs : JsonFields)
    (tail : List Char) :
    skipWs (fieldsChars k (JsonFields.cons key v fs) ++ tail) =
      quoteC :: (escapeChars key.data ++ quoteC ::
        (':' :: ' ' :: (prettyJ (k + 1) v ++ (prettyTailF k fs ++ tail)))) := by
  have hre : fieldsChars k (JsonFields.cons key v fs) ++ tail =
      '\n' :: (indentChars (k + 1) ++ (quoteC :: (escapeChars key.data ++ quoteC ::
        (':' :: ' ' :: (prettyJ (k + 1) v ++ (prettyTailF k fs ++ tail)))))) := by
    show ('\n' :: indentChars (k + 1) ++ (quoteC :: escapeChars key.data ++ [quoteC]) ++
      ':' :: ' ' :: prettyJ (k + 1) v ++ prettyTailF k fs) ++ tail = _
    simp [List.append_assoc]
  rw [hre, skipWs_cons_ws _ _ (by decide), skipWs_indent,
    skipWs_cons_nonws _ _ (by decide)]

mutual

theorem parse_pretty_value : ∀ (v : Json) (fuel k : Nat) (rest : List Char),
    canonJ v = true → jsize v < fuel → safeRest rest →
    parseV fuel ParseTask.value (prettyJ k v ++ rest) = some (v, rest)
  | Json.null, fuel, _, rest, _, hsz, _ => by
    obtain ⟨f, rfl⟩ : ∃ f, fuel = f + 1 := ⟨fuel - 1, by omega⟩
    exact parse_pretty_null f rest
  | Json.bool true, fuel, _, rest, _, hsz, _ => by
    obtain ⟨f, rfl⟩ : ∃ f, fuel = f + 1 := ⟨fuel - 1, by omega⟩
    exact parse_pretty_true f rest
  | Json.bool false, fuel, _, rest, _, hsz, _ => by
    obtain ⟨f, rfl⟩ : ∃ f, fuel = f + 1 := ⟨fuel - 1, by omega⟩
    exact parse_pretty_false f rest
  | Json.num n, fuel, _, rest, _, hsz, hsafe => by
    obtain ⟨f, rfl⟩ : ∃ f, fuel = f + 1 := ⟨fuel - 1, by omega⟩
    exact parse_pretty_num f n rest hsafe
  | Json.str s, fuel, _, rest, _, hsz, _ => by
    obtain ⟨f, rfl⟩ : ∃ f, fuel = f + 1 := ⟨fuel - 1, by omega⟩
    exact parse_pretty_str f s rest
  | Json.arr JsonList.nil, fuel, _, rest, _, hsz, _ => by
    obtain ⟨f, rfl⟩ : ∃ f, fuel = f + 1 := ⟨fuel - 1, by omega⟩
    show parseV (f + 1) ParseTask.value ('[' :: (']' :: rest)) = _
    exact parseV_value_lbracket_nil f (']' :: rest) rest
      (skipWs_cons_nonws _ _ (by decide))
  | Json.arr (JsonList.cons x xs), fuel, k, rest, hc, hsz, hsafe => by
    obtain ⟨f, rfl⟩ : ∃ f, fuel = f + 1 := ⟨fuel - 1, by omega⟩
    rw [prettyJ_arr_cons_append]
    obtain ⟨c, cs', hx, hwsx, hnsq, hnbr⟩ := prettyJ_head_nonws x (k + 1)
    have hskip : skipWs (elemsChars k (JsonList.cons x xs) ++
        ('\n' :: (indentChars k ++ ']' :: rest))) =
        c :: (cs' ++ (prettyTailL k xs ++ ('\n' :: (indentChars k ++ ']' :: rest)))) := by
      rw [skipWs_elemsChars, hx]
      rfl
    rw [parseV_value_lbracket_elems f _ c _ hskip hnsq]
    have hj : jsize (Json.arr (JsonList.cons x xs)) = 1 + lsize (JsonList.cons x xs) := rfl
    exact parse_pretty_elems (JsonList.cons x xs) JsonList.nil f k rest hc
      (by omega) hsafe (fun h => JsonList.noConfusion h)
  | Json.obj JsonFields.nil, fuel, _, rest, _, hsz, _ => by
    obtain ⟨f, rfl⟩ : ∃ f, fuel = f + 1 := ⟨fuel - 1, by omega⟩
    show parseV (f + 1) ParseTask.value (lbraceC :: (rbraceC :: rest)) = _
    exact parseV_value_lbrace_nil f (rbraceC :: rest) rest
      (skipWs_cons_nonws _ _ (by decide))
  | Json.obj (JsonFields.cons key v fs), fuel, k, rest, hc, hsz, hsafe => by
    obtain ⟨f, rfl⟩ : ∃ f, fuel = f + 1 := ⟨fuel - 1, by omega⟩
    rw [prettyJ_obj_cons_append]
    have hskip := skipWs_fieldsChars k key v fs ('\n' :: (indentChars k ++ rbraceC :: rest))
    rw [parseV_value_lbrace_fields f _ quoteC _ hskip (by decide)]
    have hj : jsize (Json.obj (JsonFields.cons key v fs)) =
      1 + fsize (JsonFields.cons key v fs) := rfl
    exact parse_pretty_fields (JsonFields.cons key v fs) JsonFields.nil f k rest hc
      (by omega) hsafe (fun key' v' t' _ => rfl) (fun h => JsonFields.noConfusion h)

theorem parse_pretty_elems : ∀ (l : JsonList) (acc : JsonList) (fuel k : Nat)
    (rest : List Char), canonL l = true → lsize l < fuel → safeRest rest →
    l ≠ JsonList.nil →
    parseV fuel (ParseTask.elems acc)
      (elemsChars k l ++ ('\n' :: (indentChars k ++ ']' :: rest))) =
      some (Json.arr (jlConcat acc l), rest)
  | JsonList.nil, _, _, _, _, _, _, _, hne => absurd rfl hne
  | JsonList.cons x xs, acc, fuel, k, rest, hc, hsz, hsafe, _ => by
    obtain ⟨f, rfl⟩ : ∃ f, fuel = f + 1 := ⟨fuel - 1, by omega⟩
    simp only [canonL, Bool.and_eq_true] at hc
    obtain ⟨hcx, hcxs⟩ := hc
    have hlsz : lsize (JsonList.cons x xs) = 2 + jsize x + lsize xs := rfl
    have hxpos := jsize_pos x
    rw [parseV_elems_unfold]
    have hval : parseV f ParseTask.value (elemsChars k (JsonList.cons x xs) ++
        ('\n' :: (indentChars k ++ ']' :: rest))) =
        some (x, prettyTailL k xs ++ ('\n' :: (indentChars k ++ ']' :: rest))) := by
      obtain ⟨f', rfl⟩ : ∃ f', f = f' + 1 := ⟨f - 1, by omega⟩
      rw [parseV_value_skipWs, skipWs_elemsChars]
      exact parse_pretty_value x (f' + 1) (k + 1) _ hcx (by omega)
        (safeRest_tailL k xs _)
    simp only [hval]
    cases xs with
    | nil =>
      have hsk : skipWs (prettyTailL k JsonList.nil ++
          ('\n' :: (indentChars k ++ ']' :: rest))) = ']' :: rest := by
        show skipWs ('\n' :: (indentChars k ++ ']' :: rest)) = _
        exact skipWs_end_bracket k rest
      simp only [hsk, if_neg (by decide : ¬ (']' : Char) = ','), if_pos rfl, if_true]
      rw [jlAppend_eq_concat]
    | cons y ys =>
      have hsk : skipWs (prettyTailL k (JsonList.cons y ys) ++
          ('\n' :: (indentChars k ++ ']' :: rest))) =
          ',' :: (elemsChars k (JsonList.cons y ys) ++
            ('\n' :: (indentChars k ++ ']' :: rest))) := by
        show skipWs (',' :: (elemsChars k (JsonList.cons y ys) ++
          ('\n' :: (indentChars k ++ ']' :: rest)))) = _
        exact skipWs_cons_nonws _ _ (by decide)
      simp only [hsk, if_pos rfl, if_true]
      rw [parse_pretty_elems (JsonList.cons y ys) (jlAppend acc x) f k rest hcxs
        (by omega) hsafe (fun h => JsonList.noConfusion h)]
      rw [jlConcat_append]

theorem parse_pretty_fields : ∀ (l : JsonFields) (acc : JsonFields) (fuel k : Nat)
    (rest : List Char), canonF l = true → fsize l < fuel → safeRest rest →
    (∀ key' v' t', l = JsonFields.cons key' v' t' → fkeysLt acc key' = true) →
    l ≠ JsonFields.nil →
    parseV fuel (ParseTask.fields acc)
      (fieldsChars k l ++ ('\n' :: (indentChars k ++ rbraceC :: rest))) =
      some (Json.obj (fconcat acc l), rest)
  | JsonFields.nil, _, _, _, _, _, _, _, _, hne => absurd rfl hne
  | JsonFields.cons key v fs, acc, fuel, k, rest, hc, hsz, hsafe, hbelow, _ => by
    obtain ⟨f, rfl⟩ : ∃ f, fuel = f + 1 := ⟨fuel - 1, by omega⟩
    simp only [canonF, Bool.and_eq_true] at hc
    obtain ⟨⟨hkeys, hcv⟩, hcfs⟩ := hc
    have hacck : fkeysLt acc key = true := hbelow key v fs rfl
    have hfsz : fsize (JsonFields.cons key v fs) = 2 + jsize v + fsize fs := rfl
    have hvpos := jsize_pos v
    have hmkkey : String.mk key.data = key := by
      cases key
      rfl
    rw [parseV_fields_unfold]
    simp only [skipWs_fieldsChars, if_pos (rfl : quoteC = quoteC), if_true,
      parseStringBody_escape, hmkkey]
    simp only [skipWs_cons_nonws ':' _ (by decide), if_pos (rfl : ':' = ':'), if_true]
    have hval : parseV f ParseTask.value
        (' ' :: (prettyJ (k + 1) v ++ (prettyTailF k fs ++
          ('\n' :: (indentChars k ++ rbraceC :: rest))))) =
        some (v, prettyTailF k fs ++ ('\n' :: (indentChars k ++ rbraceC :: rest))) := by
      obtain ⟨f', rfl⟩ : ∃ f', f = f' + 1 := ⟨f - 1, by omega⟩
      rw [parseV_value_skipWs, skipWs_cons_ws _ _ (by decide), skipWs_prettyJ]
      exact parse_pretty_value v (f' + 1) (k + 1) _ hcv (by omega)
        (safeRest_tailF k fs _)
    simp only [hval]
    cases fs with
    | nil =>
      have hsk : skipWs (prettyTailF k JsonFields.nil ++
          ('\n' :: (indentChars k ++ rbraceC :: rest))) = rbraceC :: rest := by
        show skipWs ('\n' :: (indentChars k ++ rbraceC :: rest)) = _
        exact skipWs_end_brace k rest
      simp only [hsk, if_neg (by decide : ¬ rbraceC = ','), if_pos (rfl : rbraceC = rbraceC),
        if_true]
      rw [insFields_of_fkeysLt key v acc hacck]
    | cons key2 v2 t2 =>
      have hsk : skipWs (prettyTailF k (JsonFields.cons key2 v2 t2) ++
          ('\n' :: (indentChars k ++ rbraceC :: rest))) =
          ',' :: (fieldsChars k (JsonFields.cons key2 v2 t2) ++
            ('\n' :: (indentChars k ++ rbraceC :: rest))) := by
        show skipWs (',' :: (fieldsChars k (JsonFields.cons key2 v2 t2) ++
          ('\n' :: (indentChars k ++ rbraceC :: rest)))) = _
        exact skipWs_cons_nonws _ _ (by decide)
      simp only [hsk, if_pos (rfl : (',' : Char) = ','), if_true]
      have hklt : charsLt key.data key2.data = true := hkeys
      have hbelow2 : ∀ key' v' t', JsonFields.cons key2 v2 t2 = JsonFields.cons key' v' t' →
          fkeysLt (insFields key v acc) key' = true := by
        intro key' v' t' heq
        injection heq with h1 h2 h3
        subst h1
        rw [insFields_of_fkeysLt key v acc hacck]
        apply fkeysLt_fconcat
        · exact fkeysLt_trans_head key key2 hklt acc hacck
        · simp [fkeysLt, hklt]
      rw [parse_pretty_fields (JsonFields.cons key2 v2 t2) (insFields key v acc) f k rest
        hcfs (by omega) hsafe hbelow2 (fun h => JsonFields.noConfusion h)]
      rw [insFields_of_fkeysLt key v acc hacck, fconcat_assoc_single]

end

-- ### Enough fuel: the printed form is at least as long as the size

mutual

theorem jsize_le_prettyJ : ∀ (v : Json) (k : Nat), jsize v ≤ (prettyJ k v).length
  | Json.null, k => by
    show jsize Json.null ≤ (['n', 'u', 'l', 'l'] : List Char).length
    show 1 ≤ 4
    omega
  | Json.bool true, k => by
    show 1 ≤ (['t', 'r', 'u', 'e'] : List Char).length
    decide
  | Json.bool false, k => by
    show 1 ≤ (['f', 'a', 'l', 's', 'e'] : List Char).length
    decide
  | Json.num n, k => by
    obtain ⟨c, cs', hnc, _⟩ := intChars_head n
    show jsize (Json.num n) ≤ (intChars n).length
    rw [hnc]
    show 1 ≤ (c :: cs').length
    simp
  | Json.str s, k => by
    show jsize (Json.str s) ≤ (quoteC :: escapeChars s.data ++ [quoteC]).length
    simp [jsize]
  | Json.arr JsonList.nil, k => by
    show jsize (Json.arr JsonList.nil) ≤ (['[', ']'] : List Char).length
    show 1 + lsize JsonList.nil ≤ 2
    show 1 + 0 ≤ 2
    omega
  | Json.arr (JsonList.cons x xs), k => by
    have h1 := jsize_le_prettyJ x (k + 1)
    have h2 := lsize_le_prettyTailL xs k
    show 1 + lsize (JsonList.cons x xs) ≤
      ('[' :: '\n' :: indentChars (k + 1) ++ prettyJ (k + 1) x ++ prettyTailL k xs ++
        '\n' :: indentChars k ++ [']']).length
    have hsz : lsize (JsonList.cons x xs) = 2 + jsize x + lsize xs := rfl
    simp only [List.length_append, List.length_cons, List.length_singleton, hsz]
    omega
  | Json.obj JsonFields.nil, k => by
    show jsize (Json.obj JsonFields.nil) ≤ ([lbraceC, rbraceC] : List Char).length
    show 1 + fsize JsonFields.nil ≤ 2
    show 1 + 0 ≤ 2
    omega
  | Json.obj (JsonFields.cons key v fs), k => by
    have h1 := jsize_le_prettyJ v (k + 1)
    have h2 := fsize_le_prettyTailF fs k
    show 1 + fsize (JsonFields.cons key v fs) ≤
      (lbraceC :: '\n' :: indentChars (k + 1) ++
        (quoteC :: escapeChars key.data ++ [quoteC]) ++
        ':' :: ' ' :: prettyJ (k + 1) v ++ prettyTailF k fs ++
        '\n' :: indentChars k ++ [rbraceC]).length
    have hsz : fsize (JsonFields.cons key v fs) = 2 + jsize v + fsize fs := rfl
    simp only [List.length_append, List.length_cons, List.length_singleton, hsz]
    omega

theorem lsize_le_prettyTailL : ∀ (xs : JsonList) (k : Nat),
    lsize xs ≤ (prettyTailL k xs).length
  | JsonList.nil, k => by
    show 0 ≤ ([] : List Char).length
    omega
  | JsonList.cons y ys, k => by
    have h1 := jsize_le_prettyJ y (k + 1)
    have h2 := lsize_le_prettyTailL ys k
    show 2 + jsize y + lsize ys ≤
      (',' :: '\n' :: indentChars (k + 1) ++ prettyJ (k + 1) y ++ prettyTailL k ys).length
    simp only [List.length_append, List.length_cons]
    omega

theorem fsize_le_prettyTailF : ∀ (fs : JsonFields) (k : Nat),
    fsize fs ≤ (prettyTailF k fs).length
  | JsonFields.nil, k => by
    show 0 ≤ ([] : List Char).length
    omega
  | JsonFields.cons key v t, k => by
    have h1 := jsize_le_prettyJ v (k + 1)
    have h2 := fsize_le_prettyTailF t k
    show 2 + jsize v + fsize t ≤
      (',' :: '\n' :: indentChars (k + 1) ++ (quoteC :: escapeChars key.data ++ [quoteC]) ++
        ':' :: ' ' :: prettyJ (k + 1) v ++ prettyTailF k t).length
    simp only [List.length_append, List.length_cons, List.length_singleton]
    omega

end

-- ### Top-level round trip and canonicity

theorem parseJsonStr_prettyJson (v : Json) (hc : canonJ v = true) :
    parseJsonStr (prettyJson v) = some v := by
  have hdata : (prettyJson v).data = prettyJ 0 v := rfl
  unfold parseJsonStr
  rw [hdata]
  have hfuel : jsize v < (prettyJ 0 v).length + 1 :=
    Nat.lt_succ_of_le (jsize_le_prettyJ v 0)
  have h := parse_pretty_value v ((prettyJ 0 v).length + 1) 0 [] hc hfuel (Or.inl rfl)
  rw [List.append_nil] at h
  rw [h]
  rfl

theorem parseJsonStr_canon (s : String) (v : Json)
    (h : parseJsonStr s = some v) : canonJ v = true := by
  unfold parseJsonStr at h
  split at h
  · rename_i v' rest' heq
    split at h
    · injection h with h'
      subst h'
      exact (parseV_canon (s.data.length + 1) s.data v' rest').1 heq
    · exact Option.noConfusion h
  · exact Option.noConfusion h

theorem prettyPrintedBody_idem (s : String) :
    prettyPrintedBody (prettyPrintedBody s) = prettyPrintedBody s := by
  unfold prettyPrintedBody
  cases heq : parseJsonStr s with
  | none => rw [heq]
  | some v =>
    have hc := parseJsonStr_canon s v heq
    rw [parseJsonStr_prettyJson v hc]

-- ## Response classification (send_request, lines 722-805)

/-- The data of a received HTTP response as observed by the classification
code: status code and canonical reason (lines 723-727), the Debug-formatted
header map (line 729), the content-type and content-disposition header values
(already passed through to_str, None when absent or not valid UTF-8), and the
outcomes of resp.bytes() and resp.text(). -/
structure ReceivedResponse where
  statusCode : Nat
  canonicalReason : Option String
  headersDebug : String
  contentType : Option String
  contentDisposition : Option String
  bytesResult : Except String (List Nat)
  textResult : Except String String

/-- The outcome of request.send().await (line 721): either a response or a
transport-level error message. -/
inductive TransportOutcome where
  | success (resp : ReceivedResponse)
  | failure (message : String)

/-- Whether the pattern list is a prefix of the second list
(str::starts_with). -/
def startsWithChars : List Char → List Char → Bool
  | [], _ => true
  | _ :: _, [] => false
  | p :: ps, c :: cs => p == c && startsWithChars ps cs

/-- Lines 738-742: the binary classification by content-type prefix. -/
def isBinaryContentType (content_type : String) : Bool :=
  startsWithChars "image/".data content_type.data
    || startsWithChars "application/pdf".data content_type.data
    || startsWithChars "application/octet-stream".data content_type.data
    || startsWithChars "video/".data content_type.data
    || startsWithChars "audio/".data content_type.data

/-- The suffix following the first occurrence of pat in the list, none when
pat does not occur (pat is nonempty at the use site). -/
def suffixAfterSub (pat : List Char) : List Char → Option (List Char)
  | [] => none
  | c :: cs =>
    if pat.isPrefixOf (c :: cs) then some ((c :: cs).drop pat.length)
    else suffixAfterSub pat cs

/-- The prefix of the list up to (excluding) the next occurrence of pat. -/
def takeUntilSub (pat : List Char) : List Char → List Char
  | [] => []
  | c :: cs => if pat.isPrefixOf (c :: cs) then [] else c :: takeUntilSub pat cs

def isQuoteOrApost (c : Char) : Bool := c == quoteC || c == apostC

/-- str::trim_matches with the predicate of line 752: strip every leading and
trailing double or single quote. -/
def trimMatchesQA (cs : List Char) : List Char :=
  ((cs.dropWhile isQuoteOrApost).reverse.dropWhile isQuoteOrApost).reverse

/-- Lines 750-753: s.split("filename=").nth(1) — the piece between the first
and second occurrence of "filename=" — with surrounding quotes stripped. -/
def dispositionFilename (s : String) : Option String :=
  (suffixAfterSub "filename=".data s.data).map
    (fun t => String.mk (trimMatchesQA (takeUntilSub "filename=".data t)))

/-- Line 754: url.split('/').last().unwrap_or("download"). split always
yields at least one piece, so the "download" default is unreachable. -/
def urlLastSegment (url : String) : String :=
  match (splitChar '/' url.data).getLast? with
  | some seg => String.mk seg
  | none => "download"

/-- Lines 744-755: filename from content-disposition when it contains
"filename=", otherwise the last '/'-delimited URL segment. -/
def classifyFilename (url : String) (resp : ReceivedResponse) : String :=
  match resp.contentDisposition.bind dispositionFilename with
  | some f => f
  | none => urlLastSegment url

/-- Lines 723-727: the "<code> <reason>" status line, with an empty reason
when no canonical reason is known. -/
def classifyStatus (resp : ReceivedResponse) : String :=
  String.mk (natChars resp.statusCode) ++ " " ++ resp.canonicalReason.getD ""

/-- Lines 757-784: the (body, bytes) pair. Binary: a length-and-content-type
summary with the payload bytes, or an error text with no bytes. Textual: the
pretty-printed (or unchanged) body text with no bytes. -/
def classifyBodyBytes (is_binary : Bool) (content_type : String)
    (resp : ReceivedResponse) : String × List Nat :=
  if is_binary then
    match resp.bytesResult with
    | Except.ok bytes =>
      ("Binary file (" ++ String.mk (natChars bytes.length)
        ++ " bytes)\n\nContent-Type: " ++ content_type, bytes)
    | Except.error e => ("Error reading binary data: " ++ e, [])
  else
    let body_text :=
      match resp.textResult with
      | Except.ok t => t
      | Except.error e => "Error reading body: " ++ e
    (prettyPrintedBody body_text, [])

/-- Lines 721-805: build the HttpResponse from the transport outcome. -/
def classify (url : String) : TransportOutcome → HttpResponse
  | TransportOutcome.failure e =>
    { status := "Error", headers := "", body := "Request failed: " ++ e,
      is_binary := false, filename := "", bytes := [], content_type := "" }
  | TransportOutcome.success resp =>
    { status := classifyStatus resp
      headers := resp.headersDebug
      body := (classifyBodyBytes (isBinaryContentType (resp.contentType.getD ""))
        (resp.contentType.getD "") resp).1
      is_binary := isBinaryContentType (resp.contentType.getD "")
      filename := classifyFilename url resp
      bytes := (classifyBodyBytes (isBinaryContentType (resp.contentType.getD ""))
        (resp.contentType.getD "") resp).2
      content_type := resp.contentType.getD "" }

/-- Lines 807-808: the spawned task sends exactly one value on the channel. -/
def dispatchResults (url : String) (outcome : TransportOutcome) :
    List HttpResponse :=
  [classify url outcome]

-- ## Claims C5, C7, C8, C9

/-- Claim C5: the filename fallback chain ends at the last '/'-delimited URL
segment even when that segment is empty. url.split('/').last() is Some("")
for a URL ending in '/', so the unwrap_or("download") default never fires and
the filename is "" instead of the claimed "download"; the content-disposition
and non-empty-segment links of the chain do hold. -/
theorem classify_filename_url_slash_empty :
    (classify "https://x.test/report" (TransportOutcome.success
      ⟨200, some "OK", "", some "text/plain", none,
        Except.error "e", Except.ok "hi"⟩)).filename = "report"
    ∧ (classify "https://x.test/" (TransportOutcome.success
      ⟨200, some "OK", "", some "text/plain", none,
        Except.error "e", Except.ok "hi"⟩)).filename = ""
    ∧ (classify "https://x.test/" (TransportOutcome.success
      ⟨200, some "OK", "", some "text/plain",
        some "attachment; filename=\"report.pdf\"",
        Except.error "e", Except.ok "hi"⟩)).filename = "report.pdf"
    ∧ ("" : String) ≠ "download" := by
  refine ⟨by decide, by decide, by decide, by decide⟩

/-- Claim C7: every dispatch delivers exactly one result on the channel, and
a transport-level failure yields the synthetic Error record with the
"Request failed: " message, empty headers/filename/bytes/content-type and
is_binary false. -/
theorem transport_failure_single_result (url msg : String) :
    dispatchResults url (TransportOutcome.failure msg)
      = [{ status := "Error", headers := "", body := "Request failed: " ++ msg,
           is_binary := false, filename := "", bytes := [], content_type := "" }]
    ∧ ∀ outcome, (dispatchResults url outcome).length = 1 :=
  ⟨rfl, fun _ => rfl⟩

/-- Claim C8: is_binary is exactly the five-prefix content-type test; a
non-binary response carries no bytes; a binary response with a successful
bytes read carries the payload in bytes while its body is the
"Binary file (N bytes)" summary, which depends only on the payload length
(never on the byte values themselves). -/
theorem binary_classification_invariant (url : String) (resp : ReceivedResponse) :
    (classify url (TransportOutcome.success resp)).is_binary
        = isBinaryContentType ((classify url (TransportOutcome.success resp)).content_type)
    ∧ ((classify url (TransportOutcome.success resp)).is_binary = false →
        (classify url (TransportOutcome.success resp)).bytes = [])
    ∧ (∀ bytes, (classify url (TransportOutcome.success resp)).is_binary = true →
        resp.bytesResult = Except.ok bytes →
        (classify url (TransportOutcome.success resp)).bytes = bytes
        ∧ (classify url (TransportOutcome.success resp)).body
            = "Binary file (" ++ String.mk (natChars bytes.length)
              ++ " bytes)\n\nContent-Type: "
              ++ (classify url (TransportOutcome.success resp)).content_type
        ∧ ∀ (bytes2 : List Nat), bytes2.length = bytes.length →
            (classify url (TransportOutcome.success
                { resp with bytesResult := Except.ok bytes2 })).body
              = (classify url (TransportOutcome.success resp)).body) := by
  refine ⟨rfl, ?_, ?_⟩
  · intro h
    have hb : isBinaryContentType (resp.contentType.getD "") = false := h
    show (classifyBodyBytes (isBinaryContentType (resp.contentType.getD ""))
      (resp.contentType.getD "") resp).2 = []
    rw [hb]
    simp [classifyBodyBytes]
  · intro bytes hb hok
    have hb' : isBinaryContentType (resp.contentType.getD "") = true := hb
    refine ⟨?_, ?_, ?_⟩
    · show (classifyBodyBytes (isBinaryContentType (resp.contentType.getD ""))
        (resp.contentType.getD "") resp).2 = bytes
      rw [hb']
      simp [classifyBodyBytes, hok]
    · show (classifyBodyBytes (isBinaryContentType (resp.contentType.getD ""))
        (resp.contentType.getD "") resp).1 = _
      rw [hb']
      simp [classifyBodyBytes, hok]
      rfl
    · intro bytes2 hlen
      show (classifyBodyBytes (isBinaryContentType
          (({ resp with bytesResult := Except.ok bytes2 }
            : ReceivedResponse).contentType.getD ""))
          (({ resp with bytesResult := Except.ok bytes2 }
            : ReceivedResponse).contentType.getD "")
          { resp with bytesResult := Except.ok bytes2 }).1
        = (classifyBodyBytes (isBinaryContentType (resp.contentType.getD ""))
          (resp.contentType.getD "") resp).1
      have hct : ({ resp with bytesResult := Except.ok bytes2 }
          : ReceivedResponse).contentType = resp.contentType := rfl
      rw [hct, hb']
      simp [classifyBodyBytes, hok, hlen]

/-- C8 witness: an image/png response with payload [1, 2, 3] is binary, its
bytes are the payload and its body is the three-byte summary. -/
theorem binary_classification_invariant_witness :
    (classify "https://x.test/a.png" (TransportOutcome.success
      ⟨200, some "OK", "h", some "image/png", none,
        Except.ok [1, 2, 3], Except.ok ""⟩)).bytes = [1, 2, 3]
    ∧ (classify "https://x.test/a.png" (TransportOutcome.success
      ⟨200, some "OK", "h", some "image/png", none,
        Except.ok [1, 2, 3], Except.ok ""⟩)).body
        = "Binary file (3 bytes)\n\nContent-Type: image/png" := by
  have h := binary_classification_invariant "https://x.test/a.png"
    ⟨200, some "OK", "h", some "image/png", none, Except.ok [1, 2, 3], Except.ok ""⟩
  obtain ⟨-, -, h3⟩ := h
  obtain ⟨hbytes, hbody, -⟩ := h3 [1, 2, 3] (by decide) rfl
  refine ⟨hbytes, ?_⟩
  rw [hbody]
  decide

/-- Claim C9: for a non-binary response whose text parses as JSON the body is
the pretty-printed re-serialization, which re-parses to the same value; when
the text does not parse, the body is the text unchanged. -/
theorem json_prettify_roundtrip (url : String) (resp : ReceivedResponse)
    (hb : isBinaryContentType (resp.contentType.getD "") = false)
    (t : String) (ht : resp.textResult = Except.ok t) :
    (∀ v, parseJsonStr t = some v →
        (classify url (TransportOutcome.success resp)).body = prettyJson v
        ∧ parseJsonStr ((classify url (TransportOutcome.success resp)).body) = some v)
    ∧ (parseJsonStr t = none →
        (classify url (TransportOutcome.success resp)).body = t) := by
  have hbody : (classify url (TransportOutcome.success resp)).body
      = prettyPrintedBody t := by
    show (classifyBodyBytes (isBinaryContentType (resp.contentType.getD ""))
      (resp.contentType.getD "") resp).1 = _
    rw [hb]
    simp [classifyBodyBytes, ht]
  constructor
  · intro v hv
    have hc := parseJsonStr_canon t v hv
    constructor
    · rw [hbody]
      unfold prettyPrintedBody
      rw [hv]
    · rw [hbody]
      unfold prettyPrintedBody
      rw [hv]
      exact parseJsonStr_prettyJson v hc
  · intro hnone
    rw [hbody]
    unfold prettyPrintedBody
    rw [hnone]

/-- C9 witness: the compact body \x7b"a":1\x7d is replaced by the two-space
indented form, which re-parses to the same object and differs textually from
the input. -/
theorem json_prettify_roundtrip_witness :
    (classify "https://x.test/a" (TransportOutcome.success
      ⟨200, some "OK", "h", some "application/json", none,
        Except.error "b", Except.ok "\x7b\"a\":1\x7d"⟩)).body
        = "\x7b\n  \"a\": 1\n\x7d"
    ∧ parseJsonStr ((classify "https://x.test/a" (TransportOutcome.success
      ⟨200, some "OK", "h", some "application/json", none,
        Except.error "b", Except.ok "\x7b\"a\":1\x7d"⟩)).body)
        = some (Json.obj (JsonFields.cons "a" (Json.num 1) JsonFields.nil))
    ∧ ("\x7b\n  \"a\": 1\n\x7d" : String) ≠ "\x7b\"a\":1\x7d" := by
  have h := json_prettify_roundtrip "https://x.test/a"
    ⟨200, some "OK", "h", some "application/json", none,
      Except.error "b", Except.ok "\x7b\"a\":1\x7d"⟩
    (by decide) "\x7b\"a\":1\x7d" rfl
  obtain ⟨h1, -⟩ := h
  obtain ⟨hbody, hre⟩ :=
    h1 (Json.obj (JsonFields.cons "a" (Json.num 1) JsonFields.nil)) (by decide)
  refine ⟨?_, hre, by decide⟩
  rw [hbody]
  decide
